import Mathlib

/-!
Verification of the prime-agent synchronization engine.

This file gives a shallow embedding of the core of the repository:
the sync engine (`src/sync.rs`), and models of the document module
(`agents_md`) and the skill store (`skills_store`) whose sources are not
present in the repository snapshot and are therefore modelled from the
specification.  Strings are Lean `String`s (lists of characters), text is
manipulated line by line exactly as the Rust code does via
`similar::TextDiff::from_lines`.
-/

namespace PrimeAgent

/-- Error taxonomy of the tool (spec section 7): invalid skill name,
missing skill, malformed document, closed interactive input stream. -/
inductive SyncError where
  | invalidName
  | notFound
  | malformedDoc
  | inputClosed
  deriving DecidableEq, Repr

/-- Decidable equality for fallible results, so that concrete outcomes
can be settled by evaluation. -/
instance instDecEqExcept {ε α : Type} [DecidableEq ε] [DecidableEq α] :
    DecidableEq (Except ε α)
  | .error e1, .error e2 =>
    if h : e1 = e2 then .isTrue (by rw [h])
    else .isFalse fun hh => h (by cases hh; rfl)
  | .error _, .ok _ => .isFalse fun hh => Except.noConfusion hh
  | .ok _, .error _ => .isFalse fun hh => Except.noConfusion hh
  | .ok a1, .ok a2 =>
    if h : a1 = a2 then .isTrue (by rw [h])
    else .isFalse fun hh => h (by cases hh; rfl)

/-! ### Line splitting

`similar::TextDiff::from_lines` splits a text into lines, each line keeping
its trailing newline (the final line may lack one); the empty text has no
lines.  `splitChars` performs that split on the character list. -/

/-- Split a character list into newline-terminated chunks; the accumulator
holds the current (reversed) partial line. -/
def splitChars : List Char → List Char → List (List Char)
  | [], [] => []
  | [], acc => [acc.reverse]
  | c :: cs, acc =>
    if c = '\n' then (acc.reverse ++ ['\n']) :: splitChars cs []
    else splitChars cs (c :: acc)

/-- Lines of a text, each including its trailing newline when present. -/
def splitLines (s : String) : List String :=
  (splitChars s.data []).map String.mk

/-- Concatenation of a list of strings (fold to the right). -/
def concatStr : List String → String
  | [] => ""
  | s :: rest => s ++ concatStr rest

theorem data_append (s t : String) : (s ++ t).data = s.data ++ t.data := by
  cases s; cases t; rfl

theorem concatStr_data (l : List String) :
    (concatStr l).data = (l.map String.data).flatten := by
  induction l with
  | nil => rfl
  | cons s rest ih => simp [concatStr, data_append, ih]

theorem splitChars_join (cs : List Char) :
    ∀ acc, (splitChars cs acc).flatten = acc.reverse ++ cs := by
  induction cs with
  | nil =>
    intro acc
    cases acc with
    | nil => rfl
    | cons a as => simp [splitChars]
  | cons c cs ih =>
    intro acc
    by_cases h : c = '\n'
    · subst h; simp [splitChars, ih]
    · simp [splitChars, h, ih (c :: acc)]

/-- Splitting a text into lines and concatenating them restores the text. -/
theorem concat_splitLines (s : String) : concatStr (splitLines s) = s := by
  apply String.ext
  rw [concatStr_data, splitLines, List.map_map]
  have : (String.data ∘ String.mk) = id := by funext l; rfl
  rw [this, List.map_id, splitChars_join]
  simp

/-! ### Content normalization (`normalize_content` in `src/sync.rs`)

The Rust code is `content.replace("\r\n", "\n").trim_end_matches('\n')`. -/

/-- Replace every `\r\n` pair by `\n`, scanning left to right. -/
def replaceCrlf : List Char → List Char
  | '\r' :: '\n' :: rest => '\n' :: replaceCrlf rest
  | c :: rest => c :: replaceCrlf rest
  | [] => []

/-- Drop all trailing `\n` characters. -/
def trimNlEnd (cs : List Char) : List Char :=
  ((cs.reverse.dropWhile fun c => c = '\n')).reverse

/-- Embeds `normalize_content` from `src/sync.rs`: CRLF to LF, then strip
trailing newlines. -/
def normalizeContent (s : String) : String :=
  String.mk (trimNlEnd (replaceCrlf s.data))

/-! ### Skill name validation

Modelled from the spec: `skills_store.rs` is not in the snapshot; spec
section 4.1 says `validate_name` fails when the name is empty, contains
path separators, or contains `..`. -/

/-- Decide whether `pat` occurs as a contiguous sublist of `cs`. -/
def containsSeq (pat : List Char) : List Char → Bool
  | [] => pat.isEmpty
  | c :: cs => (pat.isPrefixOf (c :: cs)) || containsSeq pat cs

/-- Modelled from the spec: a name is valid when it is nonempty, has no
path separator and no `..` (spec section 4.1, `validate_name`). -/
def validNameB (n : String) : Bool :=
  !(n.data.isEmpty) && !(n.data.contains '/') && !(n.data.contains '\\')
    && !(containsSeq ['.', '.'] n.data)

/-- Modelled from the spec: `SkillsStore::validate_name`, failing with the
invalid-name error exactly when `validNameB` rejects the name. -/
def validateName (n : String) : Except SyncError Unit :=
  if validNameB n then .ok () else .error .invalidName

/-! ### Line diff

The Rust code diffs with `similar::TextDiff::from_lines`, an external
crate computing a minimal line-level edit script (Myers).  We embed a
minimal-edit-script line diff with run-length coalesced operations; on
replacements it emits the deleted lines before the inserted ones, as
`similar` does. -/

/-- A coalesced diff operation over lines: an unchanged run, a run present
only in the old text, or a run present only in the new text. -/
inductive DiffOp where
  | equal (ls : List String)
  | del (ls : List String)
  | ins (ls : List String)
  deriving DecidableEq, Repr

/-- Prepend an equal line, merging with a leading equal run. -/
def consEq (l : String) : List DiffOp → List DiffOp
  | .equal ls :: rest => .equal (l :: ls) :: rest
  | ops => .equal [l] :: ops

/-- Prepend a deleted line, merging with a leading deleted run. -/
def consDel (l : String) : List DiffOp → List DiffOp
  | .del ls :: rest => .del (l :: ls) :: rest
  | ops => .del [l] :: ops

/-- Prepend an inserted line, merging with a leading inserted run. -/
def consIns (l : String) : List DiffOp → List DiffOp
  | .ins ls :: rest => .ins (l :: ls) :: rest
  | ops => .ins [l] :: ops

/-- Number of changed lines of an edit script. -/
def diffCost : List DiffOp → Nat
  | [] => 0
  | .equal _ :: rest => diffCost rest
  | .del ls :: rest => ls.length + diffCost rest
  | .ins ls :: rest => ls.length + diffCost rest

/-- Minimal-edit-script diff between two line lists with explicit fuel
(structural recursion, so that concrete diffs evaluate); the fuel is
always sufficient when it bounds the total length. -/
def diffAux : Nat → List String → List String → List DiffOp
  | _, [], [] => []
  | _, [], b :: bs => [.ins (b :: bs)]
  | _, a :: as_, [] => [.del (a :: as_)]
  | 0, _ :: _, _ :: _ => []
  | fuel + 1, a :: as_, b :: bs =>
    if a = b then consEq a (diffAux fuel as_ bs)
    else
      let dd := consDel a (diffAux fuel as_ (b :: bs))
      let ii := consIns b (diffAux fuel (a :: as_) bs)
      if diffCost dd ≤ diffCost ii then dd else ii

/-- Minimal-edit-script diff between two line lists, preferring deletions
first on ties (matching the rendering order of `similar`). -/
def diffLines (as_ bs : List String) : List DiffOp :=
  diffAux (as_.length + bs.length) as_ bs

/-- Lines of the old text described by an edit script (equal and deleted
runs, in order). -/
def oldLines : List DiffOp → List String
  | [] => []
  | .equal ls :: rest => ls ++ oldLines rest
  | .del ls :: rest => ls ++ oldLines rest
  | .ins _ :: rest => oldLines rest

/-- Lines of the new text described by an edit script (equal and inserted
runs, in order). -/
def newLines : List DiffOp → List String
  | [] => []
  | .equal ls :: rest => ls ++ newLines rest
  | .del _ :: rest => newLines rest
  | .ins ls :: rest => ls ++ newLines rest

/-- Whether an edit script contains any change operation. -/
def hasChange : List DiffOp → Bool
  | [] => false
  | .equal _ :: rest => hasChange rest
  | _ => true

theorem oldLines_consEq (l : String) (ops : List DiffOp) :
    oldLines (consEq l ops) = l :: oldLines ops := by
  cases ops with
  | nil => rfl
  | cons op rest => cases op <;> rfl

theorem oldLines_consDel (l : String) (ops : List DiffOp) :
    oldLines (consDel l ops) = l :: oldLines ops := by
  cases ops with
  | nil => rfl
  | cons op rest => cases op <;> rfl

theorem oldLines_consIns (l : String) (ops : List DiffOp) :
    oldLines (consIns l ops) = oldLines ops := by
  cases ops with
  | nil => rfl
  | cons op rest => cases op <;> rfl

theorem newLines_consEq (l : String) (ops : List DiffOp) :
    newLines (consEq l ops) = l :: newLines ops := by
  cases ops with
  | nil => rfl
  | cons op rest => cases op <;> rfl

theorem newLines_consDel (l : String) (ops : List DiffOp) :
    newLines (consDel l ops) = newLines ops := by
  cases ops with
  | nil => rfl
  | cons op rest => cases op <;> rfl

theorem newLines_consIns (l : String) (ops : List DiffOp) :
    newLines (consIns l ops) = l :: newLines ops := by
  cases ops with
  | nil => rfl
  | cons op rest => cases op <;> rfl

theorem diffAux_reconstruct :
    ∀ (fuel : Nat) (as_ bs : List String), as_.length + bs.length ≤ fuel →
      oldLines (diffAux fuel as_ bs) = as_ ∧ newLines (diffAux fuel as_ bs) = bs := by
  intro fuel
  induction fuel with
  | zero =>
    intro as_ bs h
    cases as_ with
    | nil =>
      cases bs with
      | nil => simp [diffAux, oldLines, newLines]
      | cons b bs => simp at h
    | cons a as_ => simp at h
  | succ fuel ih =>
    intro as_ bs h
    cases as_ with
    | nil =>
      cases bs with
      | nil => simp [diffAux, oldLines, newLines]
      | cons b bs => simp [diffAux, oldLines, newLines]
    | cons a as_ =>
      cases bs with
      | nil => simp [diffAux, oldLines, newLines]
      | cons b bs =>
        simp only [List.length_cons] at h
        simp only [diffAux]
        by_cases hab : a = b
        · subst hab
          rw [if_pos rfl]
          have hr := ih as_ bs (by omega)
          rw [oldLines_consEq, newLines_consEq, hr.1, hr.2]
          exact ⟨rfl, rfl⟩
        · rw [if_neg hab]
          have h1 := ih as_ (b :: bs) (by simp only [List.length_cons]; omega)
          have h2 := ih (a :: as_) bs (by simp only [List.length_cons]; omega)
          split
          · rw [oldLines_consDel, newLines_consDel, h1.1, h1.2]
            exact ⟨rfl, rfl⟩
          · rw [oldLines_consIns, newLines_consIns, h2.1, h2.2]
            exact ⟨rfl, rfl⟩

/-- A line diff is a faithful edit script: its equal and deleted runs
reconstruct the old line list, its equal and inserted runs the new one. -/
theorem diffLines_reconstruct (as_ bs : List String) :
    oldLines (diffLines as_ bs) = as_ ∧ newLines (diffLines as_ bs) = bs :=
  diffAux_reconstruct _ as_ bs (le_refl _)

/-! ### Hunk grouping

The Rust code calls `diff.grouped_ops(3)`.  The functions below embed
`similar`'s `group_diff_ops(ops, n)`: the leading equal run is truncated
to its last `n` lines, the trailing equal run to its first `n` lines, an
interior equal run longer than `2 * n` lines ends the current group (the
group keeps the run's first `n` lines and the next group starts with its
last `n` lines), and a final group that is empty or a single equal run is
dropped. -/

/-- Truncate a leading equal run to its last `n` lines. -/
def truncFirst (n : Nat) : List DiffOp → List DiffOp
  | .equal ls :: rest => .equal (ls.drop (ls.length - n)) :: rest
  | ops => ops

/-- Truncate a trailing equal run to its first `n` lines. -/
def truncLast (n : Nat) : List DiffOp → List DiffOp
  | [] => []
  | [.equal ls] => [.equal (ls.take n)]
  | op :: rest => op :: truncLast n rest

/-- Fold the operations into groups, splitting at interior equal runs
longer than `2 * n` lines; a trailing pending group that is empty or a
lone equal run is dropped. -/
def groupFold (n : Nat) : List DiffOp → List DiffOp → List (List DiffOp)
  | pending, [] =>
    match pending with
    | [] => []
    | [.equal _] => []
    | _ => [pending]
  | pending, .equal ls :: rest =>
    if 2 * n < ls.length then
      (pending ++ [.equal (ls.take n)]) ::
        groupFold n [.equal (ls.drop (ls.length - n))] rest
    else groupFold n (pending ++ [.equal ls]) rest
  | pending, op :: rest => groupFold n (pending ++ [op]) rest

/-- Embeds `similar::group_diff_ops` as called by `grouped_ops(n)`. -/
def groupedOps (n : Nat) (ops : List DiffOp) : List (List DiffOp) :=
  match ops with
  | [] => []
  | _ => groupFold n [] (truncLast n (truncFirst n ops))

/-- The two sides of the per-hunk binary choice (`Choice` in
`src/sync.rs`): keep the skill-store version or the document version. -/
inductive Choice where
  | skill
  | agents
  deriving DecidableEq, Repr

/-- Lines contributed by one hunk under a choice, mirroring the inner loop
of `resolve_conflicts_interactive`: equal lines are always kept, deleted
lines only under `skill`, inserted lines only under `agents`. -/
def hunkOutput (c : Choice) : List DiffOp → List String
  | [] => []
  | .equal ls :: rest => ls ++ hunkOutput c rest
  | .del ls :: rest => (if c = .skill then ls else []) ++ hunkOutput c rest
  | .ins ls :: rest => (if c = .agents then ls else []) ++ hunkOutput c rest

/-- Equal runs of a hunk, in order. -/
def equalLines : List DiffOp → List String
  | [] => []
  | .equal ls :: rest => ls ++ equalLines rest
  | _ :: rest => equalLines rest

theorem hunkOutput_skill (g : List DiffOp) :
    hunkOutput .skill g = oldLines g := by
  induction g with
  | nil => rfl
  | cons op rest ih => cases op <;> simp [hunkOutput, oldLines, ih]

theorem hunkOutput_agents (g : List DiffOp) :
    hunkOutput .agents g = newLines g := by
  induction g with
  | nil => rfl
  | cons op rest ih => cases op <;> simp [hunkOutput, newLines, ih]

/-- Equal lines of a hunk are emitted whatever the choice is. -/
theorem equalLines_sublist_hunkOutput (c : Choice) (g : List DiffOp) :
    List.Sublist (equalLines g) (hunkOutput c g) := by
  induction g with
  | nil => exact List.Sublist.refl _
  | cons op rest ih =>
    cases op with
    | equal ls => exact (ih.append_left ls)
    | del ls => exact ih.trans (List.sublist_append_right _ _)
    | ins ls => exact ih.trans (List.sublist_append_right _ _)

/-- Pure merge core: resolution as a function of the two texts and the
per-hunk choice sequence (spec section 9 models the interactive loop as a
thin wrapper around this function).  `choose i` is the choice for the
`i`-th hunk. -/
def resolveGo (choose : Nat → Choice) : Nat → List (List DiffOp) → List String
  | _, [] => []
  | i, g :: gs => hunkOutput (choose i) g ++ resolveGo choose (i + 1) gs

/-- Embeds the merge performed by `resolve_conflicts_interactive` in
`src/sync.rs`, with the interactive prompts abstracted into the choice
sequence: empty-diff early return, hunk grouping with three context
lines, and per-hunk accumulation. -/
def resolveCore (skillC agentsC : String) (choose : Nat → Choice) : String :=
  let d := diffLines (splitLines skillC) (splitLines agentsC)
  if d.isEmpty then skillC
  else concatStr (resolveGo choose 0 (groupedOps 3 d))

/-- Parse one prompt answer as `prompt_choice` does: trim surrounding
whitespace, lower-case ASCII letters, accept `s`/`skill` and
`a`/`agents`. -/
def parseChoiceLine (line : String) : Option Choice :=
  let t := String.mk (((line.data.dropWhile fun c => c.isWhitespace).reverse.dropWhile
      fun c => c.isWhitespace).reverse.map
      fun c => if 'A' ≤ c ∧ c ≤ 'Z' then Char.ofNat (c.toNat + 32) else c)
  if t = "s" ∨ t = "skill" then some .skill
  else if t = "a" ∨ t = "agents" then some .agents
  else none

/-- Embeds `prompt_choice` from `src/sync.rs`, with standard input
modelled as the list of remaining input lines: invalid answers are
skipped and the prompt repeated; an empty stream (end of file) fails with
the input-closed error. -/
def promptChoice : List String → Except SyncError (Choice × List String)
  | [] => .error .inputClosed
  | line :: rest =>
    match parseChoiceLine line with
    | some c => .ok (c, rest)
    | none => promptChoice rest

/-- Consume one prompted choice per hunk group, accumulating the resolved
text. -/
def resolveGroups : List (List DiffOp) → List String → String →
    Except SyncError (String × List String)
  | [], input, acc => .ok (acc, input)
  | g :: gs, input, acc =>
    match promptChoice input with
    | .error e => .error e
    | .ok (c, rest) => resolveGroups gs rest (acc ++ concatStr (hunkOutput c g))

/-- Embeds `resolve_conflicts_interactive` from `src/sync.rs` over the
modelled input stream; returns the resolved text and the unconsumed
input. -/
def resolveConflictsInteractive (skillC agentsC : String) (input : List String) :
    Except SyncError (String × List String) :=
  let d := diffLines (splitLines skillC) (splitLines agentsC)
  if d.isEmpty then .ok (skillC, input)
  else resolveGroups (groupedOps 3 d) input ""

/-! ### Document model

Modelled from the spec: the module `agents_md.rs` is not in the
repository snapshot (only its callers are), so `AgentsDoc`,
`AgentSection`, `parse`, `render`, `section_names`, `get_section` and
`upsert_section` are modelled from spec sections 3, 4.2 and 6: a document
is an ordered list of segments (verbatim free text, or a named section
delimited by byte-exact marker lines); parsing is a linear two-state scan
over lines; rendering concatenates the segments back. -/

/-- Drop a single trailing newline from a character list. -/
def chompNl (cs : List Char) : List Char :=
  if cs.getLast? = some '\n' then cs.dropLast else cs

/-- Strip a leading pattern, returning the remainder on success. -/
def dropPre : List Char → List Char → Option (List Char)
  | [], cs => some cs
  | _ :: _, [] => none
  | p :: ps, c :: cs => if c = p then dropPre ps cs else none

/-- Strip a trailing pattern, returning the remainder on success. -/
def dropSuf (pat cs : List Char) : Option (List Char) :=
  (dropPre pat.reverse cs.reverse).map List.reverse

/-- Extract the name of a marker line of the form
`<pre><name>) -->` (after removing the line's trailing newline). -/
def markerNameFrom (pre : List Char) (line : String) : Option String :=
  match dropPre pre (chompNl line.data) with
  | some rest => (dropSuf (") -->").data rest).map String.mk
  | none => none

/-- Modelled from the spec: name of a `<!-- prime-agent(Start <name>) -->`
marker line, if the line is one. -/
def startMarkerName (line : String) : Option String :=
  markerNameFrom ("<!-- prime-agent(Start ").data line

/-- Modelled from the spec: name of a `<!-- prime-agent(End <name>) -->`
marker line, if the line is one. -/
def endMarkerName (line : String) : Option String :=
  markerNameFrom ("<!-- prime-agent(End ").data line

/-- Modelled from the spec: a named document section.  It keeps its raw
marker lines and interior lines (heading line included) so that rendering
is byte-exact. -/
structure AgentSection where
  name : String
  startLine : String
  body : List String
  endLine : String
  deriving DecidableEq, Repr

/-- Modelled from the spec: `AgentSection::content_string`, the section
content presented to the sync engine - the interior without the
convention heading line `## <name>` and without trailing newlines (spec
section 4.4 presents the single body line `Updated content` plus newline
as the content `"Updated content"`). -/
def AgentSection.contentString (s : AgentSection) : String :=
  let b := match s.body with
    | h :: rest => if chompNl h.data = ("## " ++ s.name).data then rest else s.body
    | [] => []
  String.mk (trimNlEnd (concatStr b).data)

/-- Modelled from the spec: `AgentSection::from_content`, building a fresh
section block with Start marker, heading line, content and End marker. -/
def AgentSection.fromContent (name content : String) : AgentSection :=
  { name := name
    startLine := "<!-- prime-agent(Start " ++ name ++ ") -->\n"
    body := ("## " ++ name ++ "\n") ::
      splitLines (if content.data.getLast? = some '\n' then content else content ++ "\n")
    endLine := "<!-- prime-agent(End " ++ name ++ ") -->\n" }

/-- Modelled from the spec: a document segment - free text kept verbatim,
or a marked section. -/
inductive Segment where
  | free (chunks : List String)
  | sect (s : AgentSection)
  deriving DecidableEq, Repr

/-- Render one segment back to text. -/
def Segment.render : Segment → String
  | .free chunks => concatStr chunks
  | .sect s => s.startLine ++ concatStr s.body ++ s.endLine

/-- Modelled from the spec: a document is an ordered list of segments. -/
structure AgentsDoc where
  segments : List Segment
  deriving DecidableEq, Repr

/-- Modelled from the spec: `AgentsDoc::render`, concatenating all
segments in order. -/
def AgentsDoc.render (d : AgentsDoc) : String :=
  concatStr (d.segments.map Segment.render)

/-- Modelled from the spec: the two-state parsing scan.  `done` holds the
completed segments, `facc` the pending free-text lines, and the optional
state the open section (name, start-marker line, interior lines read so
far).  An End marker with the wrong name, an End marker outside a
section, a Start marker inside a section, and end of input inside a
section are all malformed-document errors. -/
def parseLoop : List String → List Segment → List String →
    Option (String × String × List String) → Except SyncError (List Segment)
  | [], done, facc, none =>
    .ok (done ++ if facc.isEmpty then [] else [.free facc])
  | [], _, _, some _ => .error .malformedDoc
  | l :: rest, done, facc, none =>
    match startMarkerName l with
    | some n =>
      parseLoop rest (done ++ if facc.isEmpty then [] else [.free facc]) [] (some (n, l, []))
    | none =>
      match endMarkerName l with
      | some _ => .error .malformedDoc
      | none => parseLoop rest done (facc ++ [l]) none
  | l :: rest, done, facc, some (n, sl, bacc) =>
    match endMarkerName l with
    | some m =>
      if m = n then parseLoop rest (done ++ [.sect ⟨n, sl, bacc, l⟩]) facc none
      else .error .malformedDoc
    | none =>
      match startMarkerName l with
      | some _ => .error .malformedDoc
      | none => parseLoop rest done facc (some (n, sl, bacc ++ [l]))

/-- Modelled from the spec: `AgentsDoc::parse`. -/
def AgentsDoc.parse (text : String) : Except SyncError AgentsDoc :=
  (parseLoop (splitLines text) [] [] none).map AgentsDoc.mk

/-- Modelled from the spec: `AgentsDoc::empty`. -/
def AgentsDoc.empty : AgentsDoc := ⟨[]⟩

/-- Modelled from the spec: `section_names`, the names of the marked
sections in document order. -/
def AgentsDoc.sectionNames (d : AgentsDoc) : List String :=
  d.segments.filterMap fun
    | .sect s => some s.name
    | .free _ => none

/-- Modelled from the spec: `get_section`, the first section with the
given name. -/
def AgentsDoc.getSection (d : AgentsDoc) (n : String) : Option AgentSection :=
  d.segments.findSome? fun
    | .sect s => if s.name = n then some s else none
    | .free _ => none

/-- Replace the first section with the given name, if any. -/
def replaceSection : List Segment → AgentSection → Option (List Segment)
  | [], _ => none
  | .sect t :: rest, s =>
    if t.name = s.name then some (.sect s :: rest)
    else (replaceSection rest s).map (.sect t :: ·)
  | seg :: rest, s => (replaceSection rest s).map (seg :: ·)

/-- Modelled from the spec: `upsert_section` - replace in place when the
name exists, otherwise append a new section block at the end. -/
def AgentsDoc.upsertSection (d : AgentsDoc) (s : AgentSection) : AgentsDoc :=
  match replaceSection d.segments s with
  | some segs => ⟨segs⟩
  | none => ⟨d.segments ++ [.sect s]⟩

theorem str_append_assoc (a b c : String) : a ++ b ++ c = a ++ (b ++ c) := by
  apply String.ext
  simp [data_append]

theorem str_append_empty (a : String) : a ++ "" = a := by
  apply String.ext
  simp [data_append]

theorem str_empty_append (a : String) : "" ++ a = a := by
  apply String.ext
  simp [data_append]

theorem concatStr_append (xs ys : List String) :
    concatStr (xs ++ ys) = concatStr xs ++ concatStr ys := by
  induction xs with
  | nil => simp [concatStr, str_empty_append]
  | cons x xs ih => simp [concatStr, ih, str_append_assoc]

/-- Rendered text pending in the parser state. -/
def pendingRender : Option (String × String × List String) → String
  | none => ""
  | some (_, sl, bacc) => sl ++ concatStr bacc

theorem parseLoop_render (ls : List String) :
    ∀ done facc st segs, st = none ∨ facc = [] →
      parseLoop ls done facc st = .ok segs →
      concatStr (segs.map Segment.render) =
        concatStr (done.map Segment.render) ++ (concatStr facc ++
          (pendingRender st ++ concatStr ls)) := by
  induction ls with
  | nil =>
    intro done facc st segs _ h
    cases st with
    | none =>
      simp only [parseLoop, Except.ok.injEq] at h
      subst h
      by_cases hf : facc.isEmpty
      · have : facc = [] := by
          cases facc with
          | nil => rfl
          | cons a as => simp [List.isEmpty] at hf
        subst this
        simp [pendingRender, concatStr, str_append_empty]
      · simp [hf, pendingRender, concatStr, concatStr_append, Segment.render,
          str_append_empty]
    | some p =>
      simp only [parseLoop] at h
      exact absurd h (by simp)
  | cons l rest ih =>
    intro done facc st segs hst h
    cases st with
    | none =>
      simp only [parseLoop] at h
      cases hs : startMarkerName l with
      | some n =>
        rw [hs] at h
        have := ih _ _ _ _ (Or.inr rfl) h
        by_cases hf : facc.isEmpty
        · have hfe : facc = [] := by
            cases facc with
            | nil => rfl
            | cons a as => simp [List.isEmpty] at hf
          subst hfe
          rw [this]
          simp [hf, pendingRender, concatStr, str_empty_append, str_append_assoc]
        · rw [this]
          simp [hf, pendingRender, concatStr, concatStr_append, Segment.render,
            str_append_empty, str_empty_append, str_append_assoc]
      | none =>
        rw [hs] at h
        cases he : endMarkerName l with
        | some m => rw [he] at h; exact absurd h (by simp)
        | none =>
          rw [he] at h
          have := ih _ _ _ _ (Or.inl rfl) h
          rw [this]
          simp [pendingRender, concatStr, concatStr_append, str_empty_append,
            str_append_assoc]
    | some p =>
      obtain ⟨n, sl, bacc⟩ := p
      have hfe : facc = [] := by
        cases hst with
        | inl hc => exact absurd hc (by simp)
        | inr hc => exact hc
      subst hfe
      simp only [parseLoop] at h
      cases he : endMarkerName l with
      | some m =>
        simp only [he] at h
        by_cases hm : m = n
        · rw [if_pos hm] at h
          have := ih _ _ _ _ (Or.inl rfl) h
          rw [this]
          simp [pendingRender, concatStr, concatStr_append, Segment.render,
            str_append_empty, str_empty_append, str_append_assoc]
        · rw [if_neg hm] at h
          exact absurd h (by simp)
      | none =>
        rw [he] at h
        cases hs : startMarkerName l with
        | some n2 => rw [hs] at h; exact absurd h (by simp)
        | none =>
          rw [hs] at h
          have := ih _ _ _ _ (Or.inr rfl) h
          rw [this]
          simp [pendingRender, concatStr, concatStr_append,
            str_append_empty, str_empty_append, str_append_assoc]

/-- Parsing a well-formed document and rendering it back reproduces the
input text byte for byte. -/
theorem parse_render_roundtrip (text : String) (d : AgentsDoc)
    (h : AgentsDoc.parse text = .ok d) : d.render = text := by
  unfold AgentsDoc.parse at h
  cases hp : parseLoop (splitLines text) [] [] none with
  | error e => rw [hp] at h; exact absurd h (by simp [Except.map])
  | ok segs =>
    rw [hp] at h
    simp only [Except.map, Except.ok.injEq] at h
    subst h
    have := parseLoop_render (splitLines text) [] [] none segs (Or.inl rfl) hp
    simp only [List.map_nil, concatStr, pendingRender, str_empty_append] at this
    rw [AgentsDoc.render]
    simp only [this, concat_splitLines]

/-! ### Skill store

Modelled from the spec: `skills_store.rs` is not in the repository
snapshot.  Per spec sections 4.1 and 6 the store is a file-backed mapping
from skill name to markdown content (one `SKILL.md` per name directory);
we model it as an association list with at most one entry per name in any
well-formed store. -/

/-- Modelled from the spec: the skill store as a mapping from skill names
to contents. -/
structure SkillsStore where
  skills : List (String × String)
  deriving DecidableEq, Repr

/-- Content of a skill, if present. -/
def SkillsStore.lookupSkill (st : SkillsStore) (n : String) : Option String :=
  st.skills.lookup n

/-- Modelled from the spec: `skill_exists`. -/
def SkillsStore.skillExists (st : SkillsStore) (n : String) : Bool :=
  (st.lookupSkill n).isSome

/-- Modelled from the spec: `load_skill`, failing with not-found when the
skill is absent. -/
def SkillsStore.loadSkill (st : SkillsStore) (n : String) : Except SyncError String :=
  match st.lookupSkill n with
  | some c => .ok c
  | none => .error .notFound

/-- Modelled from the spec: `save_skill`, overwriting an existing entry or
creating a new one. -/
def SkillsStore.saveSkill (st : SkillsStore) (n c : String) : SkillsStore :=
  if (st.lookupSkill n).isSome then
    ⟨st.skills.map fun p => if p.1 = n then (n, c) else p⟩
  else ⟨st.skills ++ [(n, c)]⟩

/-! ### Sorted name sets

`run_sync` and `compute_sync_status` collect names in a
`BTreeSet<String>`, i.e. a lexicographically sorted duplicate-free set;
`insertSorted` embeds its insertion, over an executable lexicographic
comparison on the characters (UTF-8 byte order and code-point order
agree). -/

/-- Executable lexicographic strict order on character lists. -/
def charsLt : List Char → List Char → Bool
  | [], [] => false
  | [], _ :: _ => true
  | _ :: _, [] => false
  | a :: as_, b :: bs =>
    if a = b then charsLt as_ bs else decide (a.toNat < b.toNat)

/-- Executable lexicographic strict order on strings. -/
def strLt (a b : String) : Bool :=
  charsLt a.data b.data

theorem charsLt_irrefl : ∀ l : List Char, charsLt l l = false := by
  intro l
  induction l with
  | nil => rfl
  | cons a as ih => simp [charsLt, ih]

theorem charsLt_trans :
    ∀ l1 l2 l3 : List Char, charsLt l1 l2 = true → charsLt l2 l3 = true →
      charsLt l1 l3 = true := by
  intro l1
  induction l1 with
  | nil =>
    intro l2 l3 h1 h2
    cases l2 with
    | nil => simp [charsLt] at h1
    | cons b bs =>
      cases l3 with
      | nil => simp [charsLt] at h2
      | cons c cs => simp [charsLt]
  | cons a as ih =>
    intro l2 l3 h1 h2
    cases l2 with
    | nil => simp [charsLt] at h1
    | cons b bs =>
      cases l3 with
      | nil => simp [charsLt] at h2
      | cons c cs =>
        simp only [charsLt] at h1 h2 ⊢
        by_cases hab : a = b
        · rw [if_pos hab] at h1
          by_cases hbc : b = c
          · rw [if_pos hbc] at h2
            rw [if_pos (hab.trans hbc)]
            exact ih bs cs h1 h2
          · rw [if_neg hbc] at h2
            have hac : ¬a = c := fun h => hbc ((hab.symm.trans h))
            rw [if_neg hac, hab]
            exact h2
        · rw [if_neg hab] at h1
          by_cases hbc : b = c
          · have hac : ¬a = c := fun h => hab (h.trans hbc.symm)
            rw [if_neg hac, ← hbc]
            exact h1
          · rw [if_neg hbc] at h2
            have hlt1 := of_decide_eq_true h1
            have hlt2 := of_decide_eq_true h2
            have hac : ¬a = c := by
              intro h
              subst h
              omega
            rw [if_neg hac]
            exact decide_eq_true (by omega)

theorem char_toNat_inj {a b : Char} (h : a.toNat = b.toNat) : a = b :=
  Char.ext (UInt32.ext h)

theorem charsLt_connected :
    ∀ l1 l2 : List Char, l1 ≠ l2 → charsLt l1 l2 = true ∨ charsLt l2 l1 = true := by
  intro l1
  induction l1 with
  | nil =>
    intro l2 h
    cases l2 with
    | nil => exact absurd rfl h
    | cons b bs => exact Or.inl (by simp [charsLt])
  | cons a as ih =>
    intro l2 h
    cases l2 with
    | nil => exact Or.inr (by simp [charsLt])
    | cons b bs =>
      by_cases hab : a = b
      · subst hab
        have hne : as ≠ bs := by
          intro hh
          exact h (by rw [hh])
        rcases ih bs hne with hx | hx
        · exact Or.inl (by simp [charsLt, hx])
        · exact Or.inr (by simp [charsLt, hx])
      · have hnat : a.toNat ≠ b.toNat := fun hh => hab (char_toNat_inj hh)
        rcases Nat.lt_or_ge a.toNat b.toNat with hlt | hge
        · exact Or.inl (by simp [charsLt, if_neg hab]; omega)
        · have hba : ¬b = a := fun hh => hab hh.symm
          have hlt : b.toNat < a.toNat := by omega
          exact Or.inr (by simp [charsLt, if_neg hba, decide_eq_true_eq]; omega)

theorem strLt_irrefl (a : String) : strLt a a = false :=
  charsLt_irrefl a.data

theorem strLt_trans {a b c : String} (h1 : strLt a b = true) (h2 : strLt b c = true) :
    strLt a c = true :=
  charsLt_trans a.data b.data c.data h1 h2

theorem strLt_connected {a b : String} (h : a ≠ b) :
    strLt a b = true ∨ strLt b a = true :=
  charsLt_connected a.data b.data fun hh => h (String.ext hh)

/-- Sortedness in the executable string order. -/
def StrSorted (l : List String) : Prop :=
  List.Pairwise (fun a b => strLt a b = true) l

/-- Insert a name into a sorted duplicate-free list, keeping it sorted and
duplicate-free (the insertion of `BTreeSet<String>`). -/
def insertSorted (n : String) : List String → List String
  | [] => [n]
  | m :: rest =>
    if n = m then m :: rest
    else if strLt n m then n :: m :: rest
    else m :: insertSorted n rest

/-- Insert every name of a list into a sorted accumulator. -/
def sortedInsertAll (names : List String) (acc : List String) : List String :=
  names.foldl (fun a n => insertSorted n a) acc

theorem mem_insertSorted (x n : String) (l : List String) :
    x ∈ insertSorted n l ↔ x = n ∨ x ∈ l := by
  induction l with
  | nil => simp [insertSorted]
  | cons m rest ih =>
    by_cases h1 : n = m
    · subst h1
      simp only [insertSorted, if_pos rfl]
      constructor
      · intro hx; exact Or.inr hx
      · intro hx
        cases hx with
        | inl hx => subst hx; exact List.mem_cons_self _ _
        | inr hx => exact hx
    · by_cases h2 : strLt n m = true
      · simp [insertSorted, h1, h2]
      · simp only [insertSorted, if_neg h1, if_neg h2, List.mem_cons, ih]
        tauto

theorem sorted_insertSorted (n : String) (l : List String)
    (h : StrSorted l) : StrSorted (insertSorted n l) := by
  induction l with
  | nil => simp [insertSorted, StrSorted]
  | cons m rest ih =>
    rw [StrSorted, List.pairwise_cons] at h
    by_cases h1 : n = m
    · subst h1
      rw [insertSorted, if_pos rfl, StrSorted, List.pairwise_cons]
      exact ⟨h.1, h.2⟩
    · by_cases h2 : strLt n m = true
      · rw [insertSorted, if_neg h1, if_pos h2, StrSorted, List.pairwise_cons]
        refine ⟨?_, ?_⟩
        · intro y hy
          rcases List.mem_cons.mp hy with hy | hy
          · exact hy ▸ h2
          · exact strLt_trans h2 (h.1 y hy)
        · rw [List.pairwise_cons]
          exact ⟨h.1, h.2⟩
      · have hmn : strLt m n = true := by
          rcases strLt_connected h1 with hc | hc
          · exact absurd hc h2
          · exact hc
        rw [insertSorted, if_neg h1, if_neg h2, StrSorted, List.pairwise_cons]
        refine ⟨?_, ih h.2⟩
        intro y hy
        rcases (mem_insertSorted y n rest).mp hy with hy | hy
        · exact hy ▸ hmn
        · exact h.1 y hy

theorem sorted_sortedInsertAll (names : List String) :
    ∀ acc, StrSorted acc → StrSorted (sortedInsertAll names acc) := by
  induction names with
  | nil => intro acc h; exact h
  | cons n rest ih =>
    intro acc h
    exact ih _ (sorted_insertSorted n acc h)

theorem mem_sortedInsertAll (names : List String) :
    ∀ acc x, x ∈ sortedInsertAll names acc ↔ x ∈ names ∨ x ∈ acc := by
  induction names with
  | nil => intro acc x; simp [sortedInsertAll]
  | cons n rest ih =>
    intro acc x
    rw [sortedInsertAll, List.foldl_cons]
    have := ih (insertSorted n acc) x
    rw [sortedInsertAll] at this
    rw [this, mem_insertSorted]
    simp only [List.mem_cons]
    tauto

theorem nodup_sortedInsertAll (names : List String) :
    (sortedInsertAll names []).Nodup := by
  have hs : StrSorted (sortedInsertAll names []) :=
    sorted_sortedInsertAll names [] (by simp [StrSorted])
  refine hs.imp ?_
  intro a b hab
  intro heq
  subst heq
  rw [strLt_irrefl] at hab
  exact absurd hab (by simp)

/-! ### Sync status (`compute_sync_status` in `src/sync.rs`) -/

/-- Per-name synchronization status (`SyncStatus` in `src/sync.rs`):
`loc` is `Local` (store only), `rem` is `Remote` (document only). -/
inductive SyncStatus where
  | inSync
  | loc
  | rem
  | conflict
  deriving DecidableEq, Repr

/-- Modelled from the spec: `list_skill_names` - the lexicographically
sorted names of the valid entries under the root; entries failing name
validation are ignored. -/
def SkillsStore.listSkillNames (st : SkillsStore) : List String :=
  sortedInsertAll ((st.skills.map Prod.fst).filter validNameB) []

/-- Normalized store-side content of a name, as the `skills_map` of
`compute_sync_status` holds it: present for listed names only. -/
def slookNorm (store : SkillsStore) (n : String) : Option String :=
  (if n ∈ store.listSkillNames then store.lookupSkill n else none).map normalizeContent

/-- Normalized document-side content of a name, as the `agents_map` of
`compute_sync_status` holds it. -/
def dlookNorm (d : AgentsDoc) (n : String) : Option String :=
  (d.getSection n).map fun s => normalizeContent s.contentString

/-- One entry of the status map, as the per-name match of
`compute_sync_status` builds it from the two maps. -/
def statusEntry (store : SkillsStore) (d : AgentsDoc) (n : String) :
    Option (String × SyncStatus) :=
  match slookNorm store n, dlookNorm d n with
  | some cl, some cr => some (n, if cl = cr then .inSync else .conflict)
  | some _, none => some (n, .loc)
  | none, some _ => some (n, .rem)
  | none, none => none

/-- Embeds `compute_sync_status` from `src/sync.rs`: empty result when
the document is absent or has no sections; otherwise one classification
per name of the union, in sorted name order. -/
def computeSyncStatus (store : SkillsStore) (agentsDoc : Option AgentsDoc) :
    List (String × SyncStatus) :=
  match agentsDoc with
  | none => []
  | some d =>
    if d.sectionNames.isEmpty then []
    else
      (sortedInsertAll (store.listSkillNames ++ d.sectionNames) []).filterMap
        (statusEntry store d)

/-- Written from the spec's section 3 truth table, for comparison with
`computeSyncStatus`: store-only is Local, document-only is Remote, both
with normalized-equal contents is InSync, both with different normalized
contents is Conflict, neither is absent. -/
def specStatus (store : SkillsStore) (d : AgentsDoc) (n : String) : Option SyncStatus :=
  match (if n ∈ store.listSkillNames then store.lookupSkill n else none), d.getSection n with
  | some sc, some s =>
    some (if normalizeContent sc = normalizeContent s.contentString then .inSync else .conflict)
  | some _, none => some .loc
  | none, some _ => some .rem
  | none, none => none

theorem getSection_isSome_iff (d : AgentsDoc) (n : String) :
    (d.getSection n).isSome ↔ n ∈ d.sectionNames := by
  unfold AgentsDoc.getSection AgentsDoc.sectionNames
  induction d.segments with
  | nil => simp
  | cons seg rest ih =>
    cases seg with
    | free chunks => simpa using ih
    | sect s =>
      by_cases h : s.name = n
      · subst h
        simp [List.findSome?]
      · simp only [List.findSome?, if_neg h, List.filterMap_cons]
        simp only [List.mem_cons]
        rw [ih]
        constructor
        · intro hx; exact Or.inr hx
        · intro hx
          rcases hx with hx | hx
          · exact absurd hx.symm h
          · exact hx

/-! ### The sync engine (`run_sync` in `src/sync.rs`)

The filesystem and interactive effects are threaded explicitly: the store
is carried as state (a skill save persists even if a later name fails, as
the real file writes do), the document only lives in memory until the
single write after the loop, and standard input is the list of remaining
lines. -/

/-- In-memory state of one sync pass: current store, current document,
the `updated` flag, and the remaining interactive input. -/
structure SyncSt where
  store : SkillsStore
  doc : AgentsDoc
  updated : Bool
  input : List String
  deriving DecidableEq, Repr

/-- Embeds one iteration of the per-name loop of `run_sync`: validate the
name, then adopt a store-missing section, resolve a normalized-content
conflict interactively (saving the resolution to the store and upserting
it into the document), or do nothing. -/
def syncName (st : SyncSt) (name : String) : SyncSt × Option SyncError :=
  if validNameB name then
    match st.store.lookupSkill name, st.doc.getSection name with
    | none, some s =>
      ({ st with store := st.store.saveSkill name s.contentString }, none)
    | some skillContent, some s =>
      if normalizeContent skillContent = normalizeContent s.contentString then (st, none)
      else
        match resolveConflictsInteractive skillContent s.contentString st.input with
        | .error e => (st, some e)
        | .ok (resolved, rest) =>
          ({ store := st.store.saveSkill name resolved
             doc := st.doc.upsertSection (AgentSection.fromContent name resolved)
             updated := true
             input := rest }, none)
    | _, none => (st, none)
  else (st, some .invalidName)

/-- The per-name loop of `run_sync`, stopping at the first error while
keeping the state reached so far (store writes persist). -/
def syncLoop : List String → SyncSt → SyncSt × Option SyncError
  | [], st => (st, none)
  | n :: rest, st =>
    match syncName st n with
    | (st', none) => syncLoop rest st'
    | (st', some e) => (st', some e)

/-- Observable outcome of `run_sync`: final store, document text written
to disk (if any), final in-memory document, and the error aborting the
run (if any).  The repository commit step is an external no-op
collaborator and is not part of the observable state. -/
structure RunResult where
  store : SkillsStore
  written : Option String
  finalDoc : Option AgentsDoc
  err : Option SyncError
  deriving DecidableEq, Repr

/-- Embeds `run_sync` from `src/sync.rs`: missing document skips to the
commit step; otherwise parse, loop over the sorted set of document
section names, and write the rendered document only when a section was
resolved or the rendering differs from the original text. -/
def runSync (store : SkillsStore) (docText : Option String) (input : List String) :
    RunResult :=
  match docText with
  | none => ⟨store, none, none, none⟩
  | some text =>
    match AgentsDoc.parse text with
    | .error e => ⟨store, none, none, some e⟩
    | .ok doc =>
      match syncLoop (sortedInsertAll doc.sectionNames []) ⟨store, doc, false, input⟩ with
      | (st, some e) => ⟨st.store, none, some st.doc, some e⟩
      | (st, none) =>
        ⟨st.store,
          if st.updated = true ∨ st.doc.render ≠ text then some st.doc.render else none,
          some st.doc, none⟩

/-! ### Helper lemmas -/

theorem lookup_map_replace_self (n c : String) :
    ∀ l : List (String × String), (List.lookup n l).isSome →
      List.lookup n (l.map fun p => if p.1 = n then (n, c) else p) = some c := by
  intro l
  induction l with
  | nil => intro h; simp [List.lookup] at h
  | cons p rest ih =>
    intro h
    by_cases hp : p.1 = n
    · rw [List.map_cons, if_pos hp]
      simp [List.lookup]
    · have hbeq : (n == p.1) = false := by
        rw [beq_eq_false_iff_ne]
        exact fun hh => hp hh.symm
      rw [List.map_cons, if_neg hp]
      simp only [List.lookup, hbeq] at h ⊢
      exact ih h

theorem lookup_append_single_self (n c : String) :
    ∀ l : List (String × String), List.lookup n l = none →
      List.lookup n (l ++ [(n, c)]) = some c := by
  intro l
  induction l with
  | nil => intro _; simp [List.lookup]
  | cons p rest ih =>
    intro h
    by_cases hp : p.1 = n
    · simp [List.lookup, hp] at h
    · have hbeq : (n == p.1) = false := by
        rw [beq_eq_false_iff_ne]
        exact fun hh => hp hh.symm
      simp only [List.lookup, hbeq] at h
      simp only [List.cons_append, List.lookup, hbeq]
      exact ih h

theorem lookup_map_replace_ne (n c m : String) (hmn : m ≠ n) :
    ∀ l : List (String × String),
      List.lookup m (l.map fun p => if p.1 = n then (n, c) else p) = List.lookup m l := by
  intro l
  induction l with
  | nil => simp
  | cons p rest ih =>
    by_cases hp : p.1 = n
    · have h1 : (m == n) = false := beq_eq_false_iff_ne.mpr hmn
      have h2 : (m == p.1) = false := by
        rw [hp]
        exact h1
      rw [List.map_cons, if_pos hp]
      simp only [List.lookup, h1, h2]
      exact ih
    · rw [List.map_cons, if_neg hp]
      cases hq : (m == p.1) with
      | true => simp only [List.lookup, hq]
      | false =>
        simp only [List.lookup, hq]
        exact ih

theorem lookup_append_single_ne (n c m : String) (hmn : m ≠ n) :
    ∀ l : List (String × String),
      List.lookup m (l ++ [(n, c)]) = List.lookup m l := by
  intro l
  induction l with
  | nil =>
    have h1 : (m == n) = false := beq_eq_false_iff_ne.mpr hmn
    simp [List.lookup, h1]
  | cons p rest ih =>
    cases hq : (m == p.1) with
    | true => simp only [List.cons_append, List.lookup, hq]
    | false =>
      simp only [List.cons_append, List.lookup, hq]
      exact ih

theorem lookupSkill_saveSkill_self (st : SkillsStore) (n c : String) :
    (st.saveSkill n c).lookupSkill n = some c := by
  unfold SkillsStore.saveSkill
  by_cases hex : (st.lookupSkill n).isSome
  · rw [if_pos hex]
    exact lookup_map_replace_self n c st.skills hex
  · rw [if_neg hex]
    apply lookup_append_single_self
    cases h : (st.lookupSkill n) with
    | none => exact h
    | some v => rw [h] at hex; simp at hex

theorem lookupSkill_saveSkill_ne (st : SkillsStore) (n c m : String) (hmn : m ≠ n) :
    (st.saveSkill n c).lookupSkill m = st.lookupSkill m := by
  unfold SkillsStore.saveSkill
  by_cases hex : (st.lookupSkill n).isSome
  · rw [if_pos hex]
    exact lookup_map_replace_ne n c m hmn st.skills
  · rw [if_neg hex]
    exact lookup_append_single_ne n c m hmn st.skills

theorem lookup_filterMap_of_none {f : String → Option (String × SyncStatus)}
    (hf : ∀ m p, f m = some p → p.1 = m) (n : String) (hn : f n = none) :
    ∀ l : List String, List.lookup n (l.filterMap f) = none := by
  intro l
  induction l with
  | nil => simp
  | cons m rest ih =>
    rw [List.filterMap_cons]
    cases hm : f m with
    | none => exact ih
    | some p =>
      have hkey : p.1 = m := hf m p hm
      have hne : (n == p.1) = false := by
        rw [beq_eq_false_iff_ne, hkey]
        intro hh
        subst hh
        rw [hm] at hn
        exact absurd hn (by simp)
      simp only [List.lookup, hne]
      exact ih

theorem lookup_filterMap {f : String → Option (String × SyncStatus)}
    (hf : ∀ m p, f m = some p → p.1 = m) :
    ∀ (names : List String) (n : String),
      List.lookup n (names.filterMap f) =
        if n ∈ names then (f n).map Prod.snd else none := by
  intro names
  induction names with
  | nil => simp
  | cons m rest ih =>
    intro n
    rw [List.filterMap_cons]
    cases hm : f m with
    | none =>
      by_cases hnm : n = m
      · subst hnm
        rw [if_pos (List.mem_cons_self _ _), hm]
        exact lookup_filterMap_of_none hf n hm rest
      · rw [ih n]
        by_cases hmem : n ∈ rest
        · rw [if_pos hmem, if_pos (List.mem_cons_of_mem _ hmem)]
        · rw [if_neg hmem, if_neg (by simp [hnm, hmem])]
    | some p =>
      have hkey : p.1 = m := hf m p hm
      by_cases hnm : n = m
      · subst hnm
        have hb : (n == p.1) = true := by
          rw [beq_iff_eq, hkey]
        simp only [List.lookup, hb, if_pos (List.mem_cons_self _ _), hm, Option.map_some']
      · have hb : (n == p.1) = false := by
          rw [beq_eq_false_iff_ne, hkey]
          exact hnm
        simp only [List.lookup, hb]
        rw [ih n]
        by_cases hmem : n ∈ rest
        · rw [if_pos hmem, if_pos (List.mem_cons_of_mem _ hmem)]
        · rw [if_neg hmem, if_neg (by simp [hnm, hmem])]

theorem map_fst_filterMap {f : String → Option (String × SyncStatus)}
    (hf : ∀ m p, f m = some p → p.1 = m) :
    ∀ names : List String,
      (names.filterMap f).map Prod.fst = names.filter fun n => (f n).isSome := by
  intro names
  induction names with
  | nil => simp
  | cons m rest ih =>
    rw [List.filterMap_cons, List.filter_cons]
    cases hm : f m with
    | none => simpa using ih
    | some p =>
      have hkey : p.1 = m := hf m p hm
      simp [hkey, ih]

theorem containsSeq_iff (pat : List Char) :
    ∀ cs : List Char, containsSeq pat cs = true ↔ pat <:+: cs := by
  intro cs
  induction cs with
  | nil =>
    cases pat with
    | nil => simp [containsSeq]
    | cons p ps => simp [containsSeq]
  | cons c cs ih =>
    rw [containsSeq, Bool.or_eq_true, List.isPrefixOf_iff_prefix, ih,
      List.infix_cons_iff]

theorem hasChange_consEq (l : String) (ops : List DiffOp) :
    hasChange (consEq l ops) = hasChange ops := by
  cases ops with
  | nil => rfl
  | cons op rest => cases op <;> rfl

theorem hasChange_consDel (l : String) (ops : List DiffOp) :
    hasChange (consDel l ops) = true := by
  cases ops with
  | nil => rfl
  | cons op rest => cases op <;> rfl

theorem hasChange_consIns (l : String) (ops : List DiffOp) :
    hasChange (consIns l ops) = true := by
  cases ops with
  | nil => rfl
  | cons op rest => cases op <;> rfl

theorem diffAux_changeless_shape :
    ∀ (fuel : Nat) (as_ bs : List String), as_.length + bs.length ≤ fuel →
      hasChange (diffAux fuel as_ bs) = false →
      diffAux fuel as_ bs = [] ∨ ∃ ls, diffAux fuel as_ bs = [.equal ls] := by
  intro fuel
  induction fuel with
  | zero =>
    intro as_ bs hlen h
    cases as_ with
    | nil =>
      cases bs with
      | nil => exact Or.inl (by simp [diffAux])
      | cons b bs => simp at hlen
    | cons a as_ => simp at hlen
  | succ fuel ih =>
    intro as_ bs hlen h
    cases as_ with
    | nil =>
      cases bs with
      | nil => exact Or.inl (by simp [diffAux])
      | cons b bs => simp [diffAux, hasChange] at h
    | cons a as_ =>
      cases bs with
      | nil => simp [diffAux, hasChange] at h
      | cons b bs =>
        simp only [List.length_cons] at hlen
        simp only [diffAux] at h ⊢
        by_cases hab : a = b
        · rw [if_pos hab] at h ⊢
          rw [hasChange_consEq] at h
          rcases ih as_ bs (by omega) h with h0 | ⟨ls, hls⟩
          · rw [h0]
            exact Or.inr ⟨[a], rfl⟩
          · rw [hls]
            exact Or.inr ⟨a :: ls, rfl⟩
        · rw [if_neg hab] at h
          split at h
          · rw [hasChange_consDel] at h
            exact absurd h (by simp)
          · rw [hasChange_consIns] at h
            exact absurd h (by simp)

/-- A changeless diff is empty or a single equal run. -/
theorem diffLines_changeless_shape (as_ bs : List String)
    (h : hasChange (diffLines as_ bs) = false) :
    diffLines as_ bs = [] ∨ ∃ ls, diffLines as_ bs = [.equal ls] :=
  diffAux_changeless_shape _ as_ bs (le_refl _) h

/-! ### Hunk grouping lemmas -/

/-- Context-fitting edit scripts: at least one change, and every equal run
within the three context lines, so that `grouped_ops(3)` keeps every
operation in a single untruncated group. -/
def fitsContext (ops : List DiffOp) : Bool :=
  hasChange ops && ops.all fun op =>
    match op with
    | .equal ls => decide (ls.length ≤ 3)
    | _ => true

theorem hasChange_ne_nil {ops : List DiffOp} (h : hasChange ops = true) : ops ≠ [] := by
  intro hh
  subst hh
  simp [hasChange] at h

theorem truncFirst_id (ops : List DiffOp)
    (h : ∀ ls, ops.head? = some (.equal ls) → ls.length ≤ 3) :
    truncFirst 3 ops = ops := by
  cases ops with
  | nil => rfl
  | cons op rest =>
    cases op with
    | equal ls =>
      have hle := h ls rfl
      simp [truncFirst, Nat.sub_eq_zero_of_le hle]
    | del ls => rfl
    | ins ls => rfl

theorem truncLast_id :
    ∀ ops : List DiffOp,
      (∀ op ∈ ops, ∀ ls, op = .equal ls → ls.length ≤ 3) →
      truncLast 3 ops = ops := by
  intro ops
  induction ops with
  | nil => intro _; rfl
  | cons op rest ih =>
    intro h
    cases rest with
    | nil =>
      cases op with
      | equal ls =>
        have hle := h (.equal ls) (List.mem_cons_self _ _) ls rfl
        simp [truncLast, List.take_of_length_le hle]
      | del ls => rfl
      | ins ls => rfl
    | cons op2 rest2 =>
      have hrest := ih fun o ho ls hl => h o (List.mem_cons_of_mem _ ho) ls hl
      cases op with
      | equal ls => simp [truncLast, hrest]
      | del ls => simp [truncLast, hrest]
      | ins ls => simp [truncLast, hrest]

theorem groupFold_cons_eq (n : Nat) (pending : List DiffOp) (ls : List String)
    (rest : List DiffOp) :
    groupFold n pending (.equal ls :: rest) =
      if 2 * n < ls.length then
        (pending ++ [.equal (ls.take n)]) ::
          groupFold n [.equal (ls.drop (ls.length - n))] rest
      else groupFold n (pending ++ [.equal ls]) rest := rfl

theorem groupFold_cons_del (n : Nat) (pending : List DiffOp) (ls : List String)
    (rest : List DiffOp) :
    groupFold n pending (.del ls :: rest) = groupFold n (pending ++ [.del ls]) rest := rfl

theorem groupFold_cons_ins (n : Nat) (pending : List DiffOp) (ls : List String)
    (rest : List DiffOp) :
    groupFold n pending (.ins ls :: rest) = groupFold n (pending ++ [.ins ls]) rest := rfl

theorem groupFold_single :
    ∀ (ops pending : List DiffOp),
      (∀ op ∈ ops, ∀ ls, op = .equal ls → ls.length ≤ 2 * 3) →
      hasChange (pending ++ ops) = true →
      groupFold 3 pending ops = [pending ++ ops] := by
  intro ops
  induction ops with
  | nil =>
    intro pending _ hch
    rw [List.append_nil] at hch
    rw [List.append_nil]
    cases pending with
    | nil => simp [hasChange] at hch
    | cons op rest =>
      cases rest with
      | nil =>
        cases op with
        | equal ls => simp [hasChange] at hch
        | del ls => rfl
        | ins ls => rfl
      | cons op2 rest2 =>
        cases op <;> rfl
  | cons op rest ih =>
    intro pending hall hch
    have hall' : ∀ o ∈ rest, ∀ ls, o = .equal ls → ls.length ≤ 2 * 3 :=
      fun o ho ls hl => hall o (List.mem_cons_of_mem _ ho) ls hl
    have hassoc : ∀ x : DiffOp, (pending ++ [x]) ++ rest = pending ++ (x :: rest) := by
      intro x
      rw [List.append_assoc]
      rfl
    cases op with
    | equal ls =>
      have hle := hall (.equal ls) (List.mem_cons_self _ _) ls rfl
      have hcond : ¬(2 * 3 < ls.length) := by omega
      rw [groupFold_cons_eq, if_neg hcond]
      have hih := ih (pending ++ [DiffOp.equal ls]) hall'
        (by rw [hassoc (DiffOp.equal ls)]; exact hch)
      rw [hassoc (DiffOp.equal ls)] at hih
      exact hih
    | del ls =>
      rw [groupFold_cons_del]
      have hih := ih (pending ++ [DiffOp.del ls]) hall'
        (by rw [hassoc (DiffOp.del ls)]; exact hch)
      rw [hassoc (DiffOp.del ls)] at hih
      exact hih
    | ins ls =>
      rw [groupFold_cons_ins]
      have hih := ih (pending ++ [DiffOp.ins ls]) hall'
        (by rw [hassoc (DiffOp.ins ls)]; exact hch)
      rw [hassoc (DiffOp.ins ls)] at hih
      exact hih

theorem groupedOps_single (ops : List DiffOp) (hfits : fitsContext ops = true) :
    groupedOps 3 ops = [ops] := by
  rw [fitsContext, Bool.and_eq_true] at hfits
  obtain ⟨hch, hall⟩ := hfits
  rw [List.all_eq_true] at hall
  have hsmall : ∀ op ∈ ops, ∀ ls, op = .equal ls → ls.length ≤ 3 := by
    intro op hop ls hl
    have := hall op hop
    subst hl
    simpa using this
  have h1 : truncFirst 3 ops = ops := by
    apply truncFirst_id
    intro ls hhead
    cases ops with
    | nil => simp at hhead
    | cons op rest =>
      simp only [List.head?] at hhead
      injection hhead with hh
      exact hsmall op (List.mem_cons_self _ _) ls hh
  have h2 : truncLast 3 ops = ops := truncLast_id ops hsmall
  have hbig : ∀ o ∈ ops, ∀ ls, o = DiffOp.equal ls → ls.length ≤ 2 * 3 :=
    fun o ho ls hl => le_trans (hsmall o ho ls hl) (by omega)
  have hfold := groupFold_single ops [] hbig (by simpa using hch)
  rw [List.nil_append] at hfold
  cases hops : ops with
  | nil => exact absurd hops (hasChange_ne_nil hch)
  | cons op rest =>
    rw [← hops]
    have hdef : groupedOps 3 ops = groupFold 3 [] (truncLast 3 (truncFirst 3 ops)) := by
      rw [hops]
      rfl
    rw [hdef, h1, h2]
    exact hfold

theorem resolveGo_single (choose : Nat → Choice) (g : List DiffOp) :
    resolveGo choose 0 [g] = hunkOutput (choose 0) g := by
  rw [resolveGo, resolveGo, List.append_nil]

/-- With every choice on the skill side and a context-fitting diff, the
merge returns the store content. -/
theorem resolveCore_skill (a b : String)
    (hfits : fitsContext (diffLines (splitLines a) (splitLines b)) = true) :
    resolveCore a b (fun _ => .skill) = a := by
  have hch : hasChange (diffLines (splitLines a) (splitLines b)) = true := by
    rw [fitsContext, Bool.and_eq_true] at hfits
    exact hfits.1
  have hne := hasChange_ne_nil hch
  have hemp : (diffLines (splitLines a) (splitLines b)).isEmpty = false := by
    cases hd : diffLines (splitLines a) (splitLines b) with
    | nil => exact absurd hd hne
    | cons op rest => rfl
  rw [resolveCore]
  simp only [hemp, Bool.false_eq_true, if_false]
  rw [groupedOps_single _ hfits, resolveGo_single, hunkOutput_skill,
    (diffLines_reconstruct _ _).1, concat_splitLines]

/-- With every choice on the document side and a context-fitting diff, the
merge returns the document content. -/
theorem resolveCore_agents (a b : String)
    (hfits : fitsContext (diffLines (splitLines a) (splitLines b)) = true) :
    resolveCore a b (fun _ => .agents) = b := by
  have hch : hasChange (diffLines (splitLines a) (splitLines b)) = true := by
    rw [fitsContext, Bool.and_eq_true] at hfits
    exact hfits.1
  have hne := hasChange_ne_nil hch
  have hemp : (diffLines (splitLines a) (splitLines b)).isEmpty = false := by
    cases hd : diffLines (splitLines a) (splitLines b) with
    | nil => exact absurd hd hne
    | cons op rest => rfl
  rw [resolveCore]
  simp only [hemp, Bool.false_eq_true, if_false]
  rw [groupedOps_single _ hfits, resolveGo_single, hunkOutput_agents,
    (diffLines_reconstruct _ _).2, concat_splitLines]

/-- A changeless diff consumes no input and yields the local text only
when both inputs are empty, the empty string otherwise. -/
theorem resolveConflictsInteractive_changeless (a b : String) (input : List String)
    (h : hasChange (diffLines (splitLines a) (splitLines b)) = false) :
    resolveConflictsInteractive a b input =
      .ok (if (diffLines (splitLines a) (splitLines b)).isEmpty then a else "", input) := by
  rcases diffLines_changeless_shape _ _ h with h0 | ⟨ls, hls⟩
  · rw [resolveConflictsInteractive, h0]
    simp [List.isEmpty]
  · have hcond : ¬(([DiffOp.equal ls] : List DiffOp).isEmpty = true) := by simp
    rw [resolveConflictsInteractive, hls]
    rw [if_neg hcond, if_neg hcond]
    have hgrp : groupedOps 3 [DiffOp.equal ls] = [] := by
      show groupFold 3 [] (truncLast 3 (truncFirst 3 [DiffOp.equal ls])) = []
      rw [truncFirst, truncLast]
      rw [groupFold_cons_eq, if_neg (by rw [List.length_take]; omega)]
      rfl
    rw [hgrp]
    rfl

/-! ### Document update lemmas -/

theorem getSection_mk_nil (n : String) : (AgentsDoc.mk []).getSection n = none := rfl

theorem getSection_cons_free (c : List String) (rest : List Segment) (n : String) :
    (AgentsDoc.mk (.free c :: rest)).getSection n = (AgentsDoc.mk rest).getSection n := rfl

theorem getSection_cons_sect (t : AgentSection) (rest : List Segment) (n : String) :
    (AgentsDoc.mk (.sect t :: rest)).getSection n =
      if t.name = n then some t else (AgentsDoc.mk rest).getSection n := by
  by_cases h : t.name = n
  · simp [AgentsDoc.getSection, List.findSome?, h]
  · simp [AgentsDoc.getSection, List.findSome?, h]

theorem sectionNames_cons_free (c : List String) (rest : List Segment) :
    (AgentsDoc.mk (.free c :: rest)).sectionNames = (AgentsDoc.mk rest).sectionNames := rfl

theorem sectionNames_cons_sect (t : AgentSection) (rest : List Segment) :
    (AgentsDoc.mk (.sect t :: rest)).sectionNames =
      t.name :: (AgentsDoc.mk rest).sectionNames := rfl

theorem replaceSection_cons_free (c : List String) (rest : List Segment)
    (s : AgentSection) :
    replaceSection (.free c :: rest) s =
      (replaceSection rest s).map (fun l => .free c :: l) := rfl

theorem replaceSection_cons_sect (t : AgentSection) (rest : List Segment)
    (s : AgentSection) :
    replaceSection (.sect t :: rest) s =
      if t.name = s.name then some (.sect s :: rest)
      else (replaceSection rest s).map (fun l => .sect t :: l) := rfl

theorem replaceSection_spec (s : AgentSection) :
    ∀ segs : List Segment,
      ((AgentsDoc.mk segs).getSection s.name).isSome = true →
      ∃ l, replaceSection segs s = some l ∧
        (AgentsDoc.mk l).sectionNames = (AgentsDoc.mk segs).sectionNames ∧
        (∀ m, m ≠ s.name →
          (AgentsDoc.mk l).getSection m = (AgentsDoc.mk segs).getSection m) ∧
        (AgentsDoc.mk l).getSection s.name = some s := by
  intro segs
  induction segs with
  | nil => intro h; rw [getSection_mk_nil] at h; simp at h
  | cons seg rest ih =>
    intro h
    cases seg with
    | free chunks =>
      rw [getSection_cons_free] at h
      obtain ⟨l, hrep, h1, h2, h3⟩ := ih h
      refine ⟨Segment.free chunks :: l, ?_, ?_, ?_, ?_⟩
      · rw [replaceSection_cons_free, hrep]
        rfl
      · rw [sectionNames_cons_free, sectionNames_cons_free, h1]
      · intro m hm
        rw [getSection_cons_free, getSection_cons_free]
        exact h2 m hm
      · rw [getSection_cons_free]
        exact h3
    | sect t =>
      rw [getSection_cons_sect] at h
      by_cases ht : t.name = s.name
      · refine ⟨Segment.sect s :: rest, ?_, ?_, ?_, ?_⟩
        · rw [replaceSection_cons_sect, if_pos ht]
        · rw [sectionNames_cons_sect, sectionNames_cons_sect, ht]
        · intro m hm
          have hs2 : ¬s.name = m := fun hh => hm hh.symm
          have htm : ¬t.name = m := fun hh => hm ((ht.symm.trans hh).symm)
          rw [getSection_cons_sect, getSection_cons_sect, if_neg hs2, if_neg htm]
        · rw [getSection_cons_sect, if_pos rfl]
      · rw [if_neg ht] at h
        obtain ⟨l, hrep, h1, h2, h3⟩ := ih h
        refine ⟨Segment.sect t :: l, ?_, ?_, ?_, ?_⟩
        · rw [replaceSection_cons_sect, if_neg ht, hrep]
          rfl
        · rw [sectionNames_cons_sect, sectionNames_cons_sect, h1]
        · intro m hm
          rw [getSection_cons_sect, getSection_cons_sect]
          by_cases htm : t.name = m
          · rw [if_pos htm, if_pos htm]
          · rw [if_neg htm, if_neg htm]
            exact h2 m hm
        · rw [getSection_cons_sect, if_neg ht]
          exact h3

theorem upsertSection_spec (d : AgentsDoc) (s : AgentSection)
    (h : (d.getSection s.name).isSome = true) :
    (d.upsertSection s).sectionNames = d.sectionNames ∧
    (∀ m, m ≠ s.name → (d.upsertSection s).getSection m = d.getSection m) ∧
    (d.upsertSection s).getSection s.name = some s := by
  obtain ⟨segs⟩ := d
  obtain ⟨l, hrep, h1, h2, h3⟩ := replaceSection_spec s segs h
  have hup : (AgentsDoc.mk segs).upsertSection s = AgentsDoc.mk l := by
    rw [AgentsDoc.upsertSection]
    rw [hrep]
  rw [hup]
  exact ⟨h1, h2, h3⟩

theorem fromContent_name (n c : String) : (AgentSection.fromContent n c).name = n := rfl

/-! ### Per-name step lemmas -/

theorem syncName_invalid (st : SyncSt) (n : String) (hv : ¬validNameB n = true) :
    syncName st n = (st, some .invalidName) := by
  rw [syncName, if_neg hv]

theorem syncName_adopt (st : SyncSt) (n : String) (s : AgentSection)
    (hv : validNameB n = true) (hlk : st.store.lookupSkill n = none)
    (hsec : st.doc.getSection n = some s) :
    syncName st n = ({ st with store := st.store.saveSkill n s.contentString }, none) := by
  rw [syncName, if_pos hv]
  simp only [hlk, hsec]

theorem syncName_nosec (st : SyncSt) (n : String)
    (hv : validNameB n = true) (hsec : st.doc.getSection n = none) :
    syncName st n = (st, none) := by
  rw [syncName, if_pos hv]
  cases hlk : st.store.lookupSkill n with
  | none => simp only [hlk, hsec]
  | some sc => simp only [hlk, hsec]

theorem syncName_insync (st : SyncSt) (n : String) (sc : String) (s : AgentSection)
    (hv : validNameB n = true) (hlk : st.store.lookupSkill n = some sc)
    (hsec : st.doc.getSection n = some s)
    (heq : normalizeContent sc = normalizeContent s.contentString) :
    syncName st n = (st, none) := by
  rw [syncName, if_pos hv]
  simp only [hlk, hsec]
  rw [if_pos heq]

theorem syncName_conflict_err (st : SyncSt) (n : String) (sc : String) (s : AgentSection)
    (e : SyncError)
    (hv : validNameB n = true) (hlk : st.store.lookupSkill n = some sc)
    (hsec : st.doc.getSection n = some s)
    (hne : ¬normalizeContent sc = normalizeContent s.contentString)
    (hres : resolveConflictsInteractive sc s.contentString st.input = .error e) :
    syncName st n = (st, some e) := by
  rw [syncName, if_pos hv]
  simp only [hlk, hsec]
  rw [if_neg hne]
  simp only [hres]

theorem syncName_conflict_ok (st : SyncSt) (n : String) (sc : String) (s : AgentSection)
    (r : String) (rest : List String)
    (hv : validNameB n = true) (hlk : st.store.lookupSkill n = some sc)
    (hsec : st.doc.getSection n = some s)
    (hne : ¬normalizeContent sc = normalizeContent s.contentString)
    (hres : resolveConflictsInteractive sc s.contentString st.input = .ok (r, rest)) :
    syncName st n =
      ({ store := st.store.saveSkill n r
         doc := st.doc.upsertSection (AgentSection.fromContent n r)
         updated := true
         input := rest }, none) := by
  rw [syncName, if_pos hv]
  simp only [hlk, hsec]
  rw [if_neg hne]
  simp only [hres]

theorem syncName_store_ne (st : SyncSt) (n m : String) (hmn : m ≠ n) :
    (syncName st n).1.store.lookupSkill m = st.store.lookupSkill m := by
  by_cases hv : validNameB n = true
  · cases hlk : st.store.lookupSkill n with
    | none =>
      cases hsec : st.doc.getSection n with
      | none => rw [syncName_nosec st n hv hsec]
      | some s =>
        rw [syncName_adopt st n s hv hlk hsec]
        exact lookupSkill_saveSkill_ne _ _ _ _ hmn
    | some sc =>
      cases hsec : st.doc.getSection n with
      | none => rw [syncName_nosec st n hv hsec]
      | some s =>
        by_cases heq : normalizeContent sc = normalizeContent s.contentString
        · rw [syncName_insync st n sc s hv hlk hsec heq]
        · cases hres : resolveConflictsInteractive sc s.contentString st.input with
          | error e => rw [syncName_conflict_err st n sc s e hv hlk hsec heq hres]
          | ok pr =>
            obtain ⟨r, rest⟩ := pr
            rw [syncName_conflict_ok st n sc s r rest hv hlk hsec heq hres]
            exact lookupSkill_saveSkill_ne _ _ _ _ hmn
  · rw [syncName_invalid st n hv]

theorem syncName_doc_ne (st : SyncSt) (n m : String) (hmn : m ≠ n) :
    (syncName st n).1.doc.getSection m = st.doc.getSection m := by
  by_cases hv : validNameB n = true
  · cases hlk : st.store.lookupSkill n with
    | none =>
      cases hsec : st.doc.getSection n with
      | none => rw [syncName_nosec st n hv hsec]
      | some s => rw [syncName_adopt st n s hv hlk hsec]
    | some sc =>
      cases hsec : st.doc.getSection n with
      | none => rw [syncName_nosec st n hv hsec]
      | some s =>
        by_cases heq : normalizeContent sc = normalizeContent s.contentString
        · rw [syncName_insync st n sc s hv hlk hsec heq]
        · cases hres : resolveConflictsInteractive sc s.contentString st.input with
          | error e => rw [syncName_conflict_err st n sc s e hv hlk hsec heq hres]
          | ok pr =>
            obtain ⟨r, rest⟩ := pr
            rw [syncName_conflict_ok st n sc s r rest hv hlk hsec heq hres]
            have hsome : (st.doc.getSection (AgentSection.fromContent n r).name).isSome
                = true := by
              rw [fromContent_name, hsec]
              rfl
            have := (upsertSection_spec st.doc (AgentSection.fromContent n r) hsome).2.1
            exact this m (by rw [fromContent_name]; exact hmn)
  · rw [syncName_invalid st n hv]

theorem syncName_doc_names (st : SyncSt) (n : String) :
    (syncName st n).1.doc.sectionNames = st.doc.sectionNames := by
  by_cases hv : validNameB n = true
  · cases hlk : st.store.lookupSkill n with
    | none =>
      cases hsec : st.doc.getSection n with
      | none => rw [syncName_nosec st n hv hsec]
      | some s => rw [syncName_adopt st n s hv hlk hsec]
    | some sc =>
      cases hsec : st.doc.getSection n with
      | none => rw [syncName_nosec st n hv hsec]
      | some s =>
        by_cases heq : normalizeContent sc = normalizeContent s.contentString
        · rw [syncName_insync st n sc s hv hlk hsec heq]
        · cases hres : resolveConflictsInteractive sc s.contentString st.input with
          | error e => rw [syncName_conflict_err st n sc s e hv hlk hsec heq hres]
          | ok pr =>
            obtain ⟨r, rest⟩ := pr
            rw [syncName_conflict_ok st n sc s r rest hv hlk hsec heq hres]
            have hsome : (st.doc.getSection (AgentSection.fromContent n r).name).isSome
                = true := by
              rw [fromContent_name, hsec]
              rfl
            exact (upsertSection_spec st.doc (AgentSection.fromContent n r) hsome).1
  · rw [syncName_invalid st n hv]

theorem syncName_err_fst (st : SyncSt) (n : String) (e : SyncError)
    (h : (syncName st n).2 = some e) : (syncName st n).1 = st := by
  by_cases hv : validNameB n = true
  · cases hlk : st.store.lookupSkill n with
    | none =>
      cases hsec : st.doc.getSection n with
      | none => rw [syncName_nosec st n hv hsec]
      | some s =>
        rw [syncName_adopt st n s hv hlk hsec] at h
        simp at h
    | some sc =>
      cases hsec : st.doc.getSection n with
      | none => rw [syncName_nosec st n hv hsec]
      | some s =>
        by_cases heq : normalizeContent sc = normalizeContent s.contentString
        · rw [syncName_insync st n sc s hv hlk hsec heq]
        · cases hres : resolveConflictsInteractive sc s.contentString st.input with
          | error e2 => rw [syncName_conflict_err st n sc s e2 hv hlk hsec heq hres]
          | ok pr =>
            obtain ⟨r, rest⟩ := pr
            rw [syncName_conflict_ok st n sc s r rest hv hlk hsec heq hres] at h
            simp at h
  · rw [syncName_invalid st n hv]

theorem syncName_ok_valid (st : SyncSt) (n : String)
    (h : (syncName st n).2 = none) : validNameB n = true := by
  by_cases hv : validNameB n = true
  · exact hv
  · rw [syncName_invalid st n hv] at h
    simp at h

/-! ### Loop lemmas -/

theorem syncLoop_cons_ok {st st' : SyncSt} {n : String} (rest : List String)
    (h : syncName st n = (st', none)) :
    syncLoop (n :: rest) st = syncLoop rest st' := by
  rw [syncLoop, h]

theorem syncLoop_cons_err {st st' : SyncSt} {n : String} {e : SyncError}
    (rest : List String) (h : syncName st n = (st', some e)) :
    syncLoop (n :: rest) st = (st', some e) := by
  rw [syncLoop, h]

theorem syncLoop_preserve :
    ∀ (names : List String) (st : SyncSt) (m : String), m ∉ names →
      (syncLoop names st).1.store.lookupSkill m = st.store.lookupSkill m ∧
      (syncLoop names st).1.doc.getSection m = st.doc.getSection m := by
  intro names
  induction names with
  | nil => intro st m _; exact ⟨rfl, rfl⟩
  | cons n rest ih =>
    intro st m hm
    have hmn : m ≠ n := fun hh => hm (hh ▸ List.mem_cons_self _ _)
    have hmr : m ∉ rest := fun hh => hm (List.mem_cons_of_mem _ hh)
    cases hstep : syncName st n with
    | mk st' e =>
      cases e with
      | none =>
        rw [syncLoop_cons_ok rest hstep]
        have hrest := ih st' m hmr
        have hs := syncName_store_ne st n m hmn
        have hd := syncName_doc_ne st n m hmn
        rw [hstep] at hs hd
        exact ⟨hrest.1.trans hs, hrest.2.trans hd⟩
      | some e =>
        rw [syncLoop_cons_err rest hstep]
        have hs := syncName_store_ne st n m hmn
        have hd := syncName_doc_ne st n m hmn
        rw [hstep] at hs hd
        exact ⟨hs, hd⟩

theorem syncLoop_doc_names :
    ∀ (names : List String) (st : SyncSt),
      (syncLoop names st).1.doc.sectionNames = st.doc.sectionNames := by
  intro names
  induction names with
  | nil => intro st; rfl
  | cons n rest ih =>
    intro st
    cases hstep : syncName st n with
    | mk st' e =>
      have hn := syncName_doc_names st n
      rw [hstep] at hn
      cases e with
      | none =>
        rw [syncLoop_cons_ok rest hstep]
        exact (ih st').trans hn
      | some e =>
        rw [syncLoop_cons_err rest hstep]
        exact hn

theorem syncLoop_all_valid :
    ∀ (names : List String) (st : SyncSt) (n : String), n ∈ names →
      (syncLoop names st).2 = none → validNameB n = true := by
  intro names
  induction names with
  | nil => intro st n hn; exact absurd hn (by simp)
  | cons m rest ih =>
    intro st n hn hok
    cases hstep : syncName st m with
    | mk st' e =>
      cases e with
      | none =>
        rw [syncLoop_cons_ok rest hstep] at hok
        rcases List.mem_cons.mp hn with hh | hh
        · subst hh
          have := syncName_ok_valid st n
          rw [hstep] at this
          exact this rfl
        · exact ih st' n hh hok
      | some e =>
        rw [syncLoop_cons_err rest hstep] at hok
        simp at hok

theorem syncLoop_store_valid :
    ∀ (names : List String) (st : SyncSt) (m : String),
      (syncLoop names st).1.store.lookupSkill m ≠ st.store.lookupSkill m →
      validNameB m = true := by
  intro names
  induction names with
  | nil => intro st m h; exact absurd rfl h
  | cons n rest ih =>
    intro st m h
    cases hstep : syncName st n with
    | mk st' e =>
      have hs1 : st'.store.lookupSkill m = (syncName st n).1.store.lookupSkill m := by
        rw [hstep]
      cases e with
      | none =>
        rw [syncLoop_cons_ok rest hstep] at h
        by_cases hmid : st'.store.lookupSkill m = st.store.lookupSkill m
        · exact ih st' m (by rw [hmid]; exact h)
        · by_cases hmn : m = n
          · subst hmn
            have := syncName_ok_valid st m
            rw [hstep] at this
            exact this rfl
          · rw [hs1, syncName_store_ne st n m hmn] at hmid
            exact absurd rfl hmid
      | some e =>
        rw [syncLoop_cons_err rest hstep] at h
        have hfst : st' = st := by
          have htmp := syncName_err_fst st n e (by rw [hstep])
          rw [hstep] at htmp
          exact htmp
        rw [hfst] at h
        exact absurd rfl h

theorem syncLoop_adopt :
    ∀ (names : List String) (st : SyncSt) (n : String), names.Nodup → n ∈ names →
      (syncLoop names st).2 = none →
      st.store.lookupSkill n = none → ∀ s, st.doc.getSection n = some s →
      (syncLoop names st).1.store.lookupSkill n = some s.contentString := by
  intro names
  induction names with
  | nil => intro st n _ hn; exact absurd hn (by simp)
  | cons m rest ih =>
    intro st n hnd hn hok hlk s hsec
    have hndr := (List.nodup_cons.mp hnd).2
    have hmr := (List.nodup_cons.mp hnd).1
    rcases List.mem_cons.mp hn with hh | hh
    · subst hh
      by_cases hv : validNameB n = true
      · have hstep2 := syncName_adopt st n s hv hlk hsec
        rw [syncLoop_cons_ok rest hstep2]
        rw [(syncLoop_preserve rest _ n hmr).1]
        exact lookupSkill_saveSkill_self _ _ _
      · have hstep2 := syncName_invalid st n hv
        rw [syncLoop_cons_err rest hstep2] at hok
        simp at hok
    · have hmn : n ≠ m := fun hh2 => hmr (hh2 ▸ hh)
      cases hstep : syncName st m with
      | mk st' e =>
        cases e with
        | none =>
          rw [syncLoop_cons_ok rest hstep] at hok ⊢
          have hs := syncName_store_ne st m n hmn
          have hd := syncName_doc_ne st m n hmn
          rw [hstep] at hs hd
          exact ih st' n hndr hh hok (hs.trans hlk) s (hd.trans hsec)
        | some e =>
          rw [syncLoop_cons_err rest hstep] at hok
          simp at hok

theorem syncLoop_insync :
    ∀ (names : List String) (st : SyncSt) (n : String), names.Nodup → n ∈ names →
      (syncLoop names st).2 = none →
      ∀ sc s, st.store.lookupSkill n = some sc → st.doc.getSection n = some s →
      normalizeContent sc = normalizeContent s.contentString →
      (syncLoop names st).1.store.lookupSkill n = some sc ∧
      (syncLoop names st).1.doc.getSection n = some s := by
  intro names
  induction names with
  | nil => intro st n _ hn; exact absurd hn (by simp)
  | cons m rest ih =>
    intro st n hnd hn hok sc s hlk hsec heq
    have hndr := (List.nodup_cons.mp hnd).2
    have hmr := (List.nodup_cons.mp hnd).1
    rcases List.mem_cons.mp hn with hh | hh
    · subst hh
      by_cases hv : validNameB n = true
      · have hstep2 := syncName_insync st n sc s hv hlk hsec heq
        rw [syncLoop_cons_ok rest hstep2]
        have hpres := syncLoop_preserve rest st n hmr
        exact ⟨hpres.1.trans hlk, hpres.2.trans hsec⟩
      · have hstep2 := syncName_invalid st n hv
        rw [syncLoop_cons_err rest hstep2] at hok
        simp at hok
    · have hmn : n ≠ m := fun hh2 => hmr (hh2 ▸ hh)
      cases hstep : syncName st m with
      | mk st' e =>
        cases e with
        | none =>
          rw [syncLoop_cons_ok rest hstep] at hok ⊢
          have hs := syncName_store_ne st m n hmn
          have hd := syncName_doc_ne st m n hmn
          rw [hstep] at hs hd
          exact ih st' n hndr hh hok sc s (hs.trans hlk) (hd.trans hsec) heq
        | some e =>
          rw [syncLoop_cons_err rest hstep] at hok
          simp at hok

/-! ### Status map lemmas -/

theorem statusEntry_key (store : SkillsStore) (d : AgentsDoc) :
    ∀ m p, statusEntry store d m = some p → p.1 = m := by
  intro m p h
  rw [statusEntry] at h
  cases h1 : slookNorm store m with
  | none =>
    cases h2 : dlookNorm d m with
    | none => rw [h1, h2] at h; exact absurd h (by simp)
    | some cr => rw [h1, h2] at h; injection h with hh; rw [← hh]
  | some cl =>
    cases h2 : dlookNorm d m with
    | none => rw [h1, h2] at h; injection h with hh; rw [← hh]
    | some cr => rw [h1, h2] at h; injection h with hh; rw [← hh]

theorem statusEntry_snd (store : SkillsStore) (d : AgentsDoc) (n : String) :
    (statusEntry store d n).map Prod.snd = specStatus store d n := by
  rw [statusEntry, specStatus, slookNorm, dlookNorm]
  cases h1 : (if n ∈ store.listSkillNames then store.lookupSkill n else none) with
  | none =>
    cases h2 : d.getSection n with
    | none => rfl
    | some s => rfl
  | some sc =>
    cases h2 : d.getSection n with
    | none => rfl
    | some s => rfl

theorem specStatus_none (store : SkillsStore) (d : AgentsDoc) (n : String)
    (hn1 : n ∉ store.listSkillNames) (hn2 : n ∉ d.sectionNames) :
    specStatus store d n = none := by
  have hsec : d.getSection n = none := by
    cases hs : d.getSection n with
    | none => rfl
    | some s => exact absurd ((getSection_isSome_iff d n).mp (by rw [hs]; rfl)) hn2
  rw [specStatus, if_neg hn1, hsec]

theorem lookup_isSome_of_mem_fst {a : String} :
    ∀ l : List (String × String), a ∈ l.map Prod.fst →
      (List.lookup a l).isSome = true := by
  intro l
  induction l with
  | nil => intro h; simp at h
  | cons p rest ih =>
    intro h
    rw [List.map_cons] at h
    rcases List.mem_cons.mp h with hh | hh
    · have hb : (a == p.1) = true := beq_iff_eq.mpr hh
      simp only [List.lookup, hb]
      rfl
    · cases hbp : (a == p.1) with
      | true => simp only [List.lookup, hbp]; rfl
      | false =>
        simp only [List.lookup, hbp]
        exact ih hh

theorem mem_listSkillNames_isSome (store : SkillsStore) (n : String)
    (h : n ∈ store.listSkillNames) : (store.lookupSkill n).isSome = true := by
  rw [SkillsStore.listSkillNames, mem_sortedInsertAll] at h
  rcases h with h | h
  · exact lookup_isSome_of_mem_fst store.skills (List.mem_of_mem_filter h)
  · simp at h

theorem specStatus_isSome_iff (store : SkillsStore) (d : AgentsDoc) (n : String) :
    (specStatus store d n).isSome = true ↔
      n ∈ store.listSkillNames ∨ n ∈ d.sectionNames := by
  rw [specStatus]
  by_cases hmem : n ∈ store.listSkillNames
  · rw [if_pos hmem]
    cases hlk : store.lookupSkill n with
    | none =>
      have := mem_listSkillNames_isSome store n hmem
      rw [hlk] at this
      exact absurd this (by simp)
    | some sc =>
      cases hsec : d.getSection n with
      | none => simp [hmem]
      | some s => simp [hmem]
  · rw [if_neg hmem]
    cases hsec : d.getSection n with
    | none =>
      simp only [Option.isSome_none]
      have h2 : n ∉ d.sectionNames := by
        intro hh
        have := (getSection_isSome_iff d n).mpr hh
        rw [hsec] at this
        exact absurd this (by simp)
      constructor
      · intro hh; exact absurd hh (by simp)
      · intro hh; rcases hh with hh | hh
        · exact absurd hh hmem
        · exact absurd hh h2
    | some s => simp [Or.inr ((getSection_isSome_iff d n).mp (by rw [hsec]; rfl))]

/-! ### Claim C1: status totality -/

/-- C1 (counterexample): with a store entry `alpha` and a present document
with no sections, `compute_sync_status` returns the empty map, so `alpha`
is not classified `Local` as the claim requires. -/
theorem c1_empty_doc_counterexample :
    computeSyncStatus ⟨[("alpha", "x\n")]⟩
      (some (AgentsDoc.mk [Segment.free ["notes\n"]])) = [] ∧
    List.lookup "alpha" (computeSyncStatus ⟨[("alpha", "x\n")]⟩
      (some (AgentsDoc.mk [Segment.free ["notes\n"]]))) ≠ some SyncStatus.loc := by
  refine ⟨by decide, by decide⟩

/-- C1 (amended): provided the document is present and has at least one
section, every name of the union of store names and document section
names appears exactly once in `compute_sync_status`'s result, classified
per the section-3 truth table (`specStatus`), and no other name appears;
when the document has no sections the result is empty instead. -/
theorem c1_status_table (store : SkillsStore) (d : AgentsDoc)
    (hne : d.sectionNames ≠ []) :
    ((computeSyncStatus store (some d)).map Prod.fst).Nodup ∧
    (∀ n, List.lookup n (computeSyncStatus store (some d)) = specStatus store d n) ∧
    (∀ n, (List.lookup n (computeSyncStatus store (some d))).isSome = true ↔
      n ∈ store.listSkillNames ∨ n ∈ d.sectionNames) := by
  have hf := statusEntry_key store d
  have hempty : d.sectionNames.isEmpty = false := by
    cases hsec : d.sectionNames with
    | nil => exact absurd hsec hne
    | cons x xs => rfl
  have hcdef : computeSyncStatus store (some d) =
      (sortedInsertAll (store.listSkillNames ++ d.sectionNames) []).filterMap
        (statusEntry store d) := by
    simp only [computeSyncStatus, hempty, Bool.false_eq_true, if_false]
  have hlook : ∀ n, List.lookup n (computeSyncStatus store (some d)) =
      specStatus store d n := by
    intro n
    rw [hcdef, lookup_filterMap hf]
    by_cases hmem : n ∈ sortedInsertAll (store.listSkillNames ++ d.sectionNames) []
    · rw [if_pos hmem]
      exact statusEntry_snd store d n
    · rw [if_neg hmem]
      rw [mem_sortedInsertAll] at hmem
      have hnotu : n ∉ store.listSkillNames ++ d.sectionNames := fun hh => hmem (Or.inl hh)
      rw [List.mem_append] at hnotu
      push_neg at hnotu
      exact (specStatus_none store d n hnotu.1 hnotu.2).symm
  refine ⟨?_, hlook, ?_⟩
  · rw [hcdef, map_fst_filterMap hf]
    exact (nodup_sortedInsertAll _).filter _
  · intro n
    rw [hlook n]
    exact specStatus_isSome_iff store d n

/-- Store and document used to witness the C1 status table. -/
def c1store : SkillsStore := ⟨[("alpha", "x\n"), ("beta", "B\n")]⟩

/-- Document with sections `beta` (in sync with the store) and `gamma`
(document-only). -/
def c1doc : AgentsDoc := AgentsDoc.mk
  [Segment.sect ⟨"beta", "<!-- prime-agent(Start beta) -->\n",
      ["## beta\n", "B\n"], "<!-- prime-agent(End beta) -->\n"⟩,
   Segment.sect ⟨"gamma", "<!-- prime-agent(Start gamma) -->\n",
      ["## gamma\n", "G\n"], "<!-- prime-agent(End gamma) -->\n"⟩]

/-- C1 witness: the amended status-table theorem at a concrete store and
document. -/
theorem c1_status_table_witness :
    ((computeSyncStatus c1store (some c1doc)).map Prod.fst).Nodup ∧
    List.lookup "alpha" (computeSyncStatus c1store (some c1doc)) =
      specStatus c1store c1doc "alpha" := by
  have h := c1_status_table c1store c1doc (by decide)
  exact ⟨h.1, h.2.1 "alpha"⟩

/-! ### Claim C2: conflict resolution determinism -/

/-- C2 (counterexample): with four equal context lines before the change,
choosing the local side for the single hunk does not return the local
text - `grouped_ops(3)` truncates the leading equal run to three lines,
so the first line is dropped. -/
theorem c2_context_truncation_counterexample :
    resolveCore "1\n2\n3\n4\nX\n" "1\n2\n3\n4\nY\n" (fun _ => Choice.skill) =
      "2\n3\n4\nX\n" ∧
    resolveCore "1\n2\n3\n4\nX\n" "1\n2\n3\n4\nY\n" (fun _ => Choice.skill) ≠
      "1\n2\n3\n4\nX\n" := by
  refine ⟨by decide, by decide⟩

/-- C2 (amended): resolution is a pure function of the two texts and the
per-hunk choice sequence; equal lines inside a presented hunk are emitted
whatever the choice is; when the diff has at least one change and every
equal run fits the three-line context (so nothing is truncated or
dropped), all-local choices return the local text and all-remote choices
the remote text; for local `"Old content\n"` and remote
`"Updated content"` exactly one hunk is presented, local yields the local
text and remote the remote text.  In general the all-local identity fails
because equal lines beyond the context are dropped. -/
theorem c2_resolution_determinism :
    (∀ (c : Choice) (g : List DiffOp), List.Sublist (equalLines g) (hunkOutput c g)) ∧
    (∀ a b : String, fitsContext (diffLines (splitLines a) (splitLines b)) = true →
      resolveCore a b (fun _ => Choice.skill) = a ∧
      resolveCore a b (fun _ => Choice.agents) = b) ∧
    (groupedOps 3 (diffLines (splitLines "Old content\n")
      (splitLines "Updated content"))).length = 1 ∧
    resolveCore "Old content\n" "Updated content" (fun _ => Choice.skill) =
      "Old content\n" ∧
    resolveCore "Old content\n" "Updated content" (fun _ => Choice.agents) =
      "Updated content" := by
  refine ⟨equalLines_sublist_hunkOutput, ?_, by decide, by decide, by decide⟩
  intro a b hfits
  exact ⟨resolveCore_skill a b hfits, resolveCore_agents a b hfits⟩

/-- C2 witness: the all-local identity at the concrete pair of the spec,
whose diff fits the context window. -/
theorem c2_resolution_determinism_witness :
    fitsContext (diffLines (splitLines "Old content\n")
      (splitLines "Updated content")) = true ∧
    resolveCore "Old content\n" "Updated content" (fun _ => Choice.skill) =
      "Old content\n" :=
  ⟨by decide,
    (c2_resolution_determinism.2.1 "Old content\n" "Updated content" (by decide)).1⟩

/-! ### Claim C3: changeless diff -/

/-- C3 (counterexample): for equal nonempty inputs the line diff has no
changes, yet resolution returns the empty string, not the local text
(the early return only fires when `ops()` is empty, i.e. when both
inputs are empty). -/
theorem c3_equal_inputs_counterexample :
    resolveConflictsInteractive "x\n" "x\n" [] = .ok ("", []) ∧
    resolveConflictsInteractive "x\n" "x\n" [] ≠ .ok ("x\n", []) := by
  refine ⟨by decide, by decide⟩

/-- C3 (amended): when the line diff contains no changes, resolution
consumes no interactive choice, and it returns the local text unchanged
only when the diff has no operations at all (both inputs empty); for
equal nonempty inputs it returns the empty string. -/
theorem c3_changeless_resolution (a b : String) (input : List String)
    (h : hasChange (diffLines (splitLines a) (splitLines b)) = false) :
    resolveConflictsInteractive a b input =
      .ok (if (diffLines (splitLines a) (splitLines b)).isEmpty then a else "", input) :=
  resolveConflictsInteractive_changeless a b input h

/-- C3 witness: the changeless-resolution theorem at equal concrete
inputs with pending input lines, which are left unconsumed. -/
theorem c3_changeless_resolution_witness :
    hasChange (diffLines (splitLines "y\n") (splitLines "y\n")) = false ∧
    resolveConflictsInteractive "y\n" "y\n" ["s"] =
      .ok (if (diffLines (splitLines "y\n") (splitLines "y\n")).isEmpty
        then "y\n" else "", ["s"]) :=
  ⟨by decide, c3_changeless_resolution "y\n" "y\n" ["s"] (by decide)⟩

/-! ### Claim C4: run_sync scope, adoption, and in-sync no-ops -/

/-- C4: on a successful run, `run_sync` iterates only over names present
in the document: the final document has exactly the original section
names (no section is added for store-only names); every document section
whose name is absent from the store is adopted - its content is saved as
a new skill; names present in both with normalized-equal contents cause
no store write and no document mutation; and skills whose names are not
document sections are untouched. -/
theorem c4_run_sync_scope (store : SkillsStore) (text : String) (input : List String)
    (doc : AgentsDoc) (hparse : AgentsDoc.parse text = .ok doc)
    (hok : (runSync store (some text) input).err = none) :
    (∃ d, (runSync store (some text) input).finalDoc = some d ∧
      d.sectionNames = doc.sectionNames) ∧
    (∀ n, n ∈ doc.sectionNames → store.lookupSkill n = none →
      ∀ s, doc.getSection n = some s →
        (runSync store (some text) input).store.lookupSkill n =
          some s.contentString) ∧
    (∀ n sc s, n ∈ doc.sectionNames → store.lookupSkill n = some sc →
      doc.getSection n = some s →
      normalizeContent sc = normalizeContent s.contentString →
      (runSync store (some text) input).store.lookupSkill n = some sc ∧
      (∃ d, (runSync store (some text) input).finalDoc = some d ∧
        d.getSection n = some s)) ∧
    (∀ n, n ∉ doc.sectionNames →
      (runSync store (some text) input).store.lookupSkill n =
        store.lookupSkill n) := by
  cases hloop : syncLoop (sortedInsertAll doc.sectionNames [])
      ⟨store, doc, false, input⟩ with
  | mk stF e =>
    cases e with
    | some e =>
      have hres : runSync store (some text) input =
          ⟨stF.store, none, some stF.doc, some e⟩ := by
        simp only [runSync, hparse, hloop]
      rw [hres] at hok
      exact absurd hok (by simp)
    | none =>
      have hres : runSync store (some text) input =
          ⟨stF.store,
            if stF.updated = true ∨ stF.doc.render ≠ text
              then some stF.doc.render else none,
            some stF.doc, none⟩ := by
        simp only [runSync, hparse, hloop]
      have hfst : (syncLoop (sortedInsertAll doc.sectionNames [])
          ⟨store, doc, false, input⟩).1 = stF := by
        rw [hloop]
      have hsnd : (syncLoop (sortedInsertAll doc.sectionNames [])
          ⟨store, doc, false, input⟩).2 = none := by
        rw [hloop]
      have hstore : (runSync store (some text) input).store = stF.store := by
        rw [hres]
      have hfdoc : (runSync store (some text) input).finalDoc = some stF.doc := by
        rw [hres]
      have hnd := nodup_sortedInsertAll doc.sectionNames
      refine ⟨?_, ?_, ?_, ?_⟩
      · refine ⟨stF.doc, hfdoc, ?_⟩
        have := syncLoop_doc_names (sortedInsertAll doc.sectionNames [])
          ⟨store, doc, false, input⟩
        rw [hfst] at this
        exact this
      · intro n hn hnone s hsec
        have hmem : n ∈ sortedInsertAll doc.sectionNames [] :=
          (mem_sortedInsertAll _ _ _).mpr (Or.inl hn)
        have := syncLoop_adopt (sortedInsertAll doc.sectionNames [])
          ⟨store, doc, false, input⟩ n hnd hmem hsnd hnone s hsec
        rw [hfst] at this
        rw [hstore]
        exact this
      · intro n sc s hn hsc hsec heq
        have hmem : n ∈ sortedInsertAll doc.sectionNames [] :=
          (mem_sortedInsertAll _ _ _).mpr (Or.inl hn)
        have := syncLoop_insync (sortedInsertAll doc.sectionNames [])
          ⟨store, doc, false, input⟩ n hnd hmem hsnd sc s hsc hsec heq
        rw [hfst] at this
        exact ⟨by rw [hstore]; exact this.1, ⟨stF.doc, hfdoc, this.2⟩⟩
      · intro n hn
        have hnot : n ∉ sortedInsertAll doc.sectionNames [] := by
          intro hh
          rcases (mem_sortedInsertAll _ _ _).mp hh with hh2 | hh2
          · exact hn hh2
          · simp at hh2
        have := (syncLoop_preserve (sortedInsertAll doc.sectionNames [])
          ⟨store, doc, false, input⟩ n hnot).1
        rw [hfst] at this
        rw [hstore]
        exact this

/-- Store used to witness C4: `alpha` exists, `beta` does not. -/
def c4store : SkillsStore := ⟨[("alpha", "A\n")]⟩

/-- Document text with section `alpha` (in sync after normalization) and
section `beta` (to be adopted). -/
def c4text : String :=
  "<!-- prime-agent(Start alpha) -->\n## alpha\nA\n<!-- prime-agent(End alpha) -->\n<!-- prime-agent(Start beta) -->\n## beta\nB\n<!-- prime-agent(End beta) -->\n"

/-- Parsed form of `c4text`. -/
def c4doc : AgentsDoc := (AgentsDoc.parse c4text).toOption.getD AgentsDoc.empty

/-- Section `beta` of `c4doc`. -/
def c4beta : AgentSection :=
  ⟨"beta", "<!-- prime-agent(Start beta) -->\n", ["## beta\n", "B\n"],
    "<!-- prime-agent(End beta) -->\n"⟩

/-- Section `alpha` of `c4doc`. -/
def c4alpha : AgentSection :=
  ⟨"alpha", "<!-- prime-agent(Start alpha) -->\n", ["## alpha\n", "A\n"],
    "<!-- prime-agent(End alpha) -->\n"⟩

/-- C4 witness: the scope theorem at a concrete store and document -
`beta` is adopted and the in-sync `alpha` keeps its store content. -/
theorem c4_run_sync_scope_witness :
    (runSync c4store (some c4text) []).store.lookupSkill "beta" =
      some c4beta.contentString ∧
    (runSync c4store (some c4text) []).store.lookupSkill "alpha" = some "A\n" := by
  have hparse : AgentsDoc.parse c4text = .ok c4doc := by decide
  have h := c4_run_sync_scope c4store c4text [] c4doc hparse (by decide)
  refine ⟨?_, ?_⟩
  · exact h.2.1 "beta" (by decide) (by decide) c4beta (by decide)
  · exact (h.2.2.1 "alpha" "A\n" c4alpha (by decide) (by decide) (by decide)
      (by decide)).1

/-! ### Claim C5: failed resolution aborts without a document write -/

/-- Store used for the C5 abort scenario: two skills in conflict with the
document. -/
def c5store : SkillsStore := ⟨[("a", "1\n"), ("b", "1\n")]⟩

/-- Document text with conflicting sections `a` and `b`. -/
def c5text : String :=
  "<!-- prime-agent(Start a) -->\n## a\n2\n<!-- prime-agent(End a) -->\n<!-- prime-agent(Start b) -->\n## b\n2\n<!-- prime-agent(End b) -->\n"

/-- C5: whenever `run_sync` fails, the document file is not written (the
single write happens only after the full loop); in the concrete
scenario, one choice resolves skill `a` (its save persists) and the
closed input stream aborts the run at `b` with the input-closed error,
the store keeping the already-resolved content and no document text
being written. -/
theorem c5_abort_no_doc_write :
    (∀ (store : SkillsStore) (docText : Option String) (input : List String),
      (runSync store docText input).err ≠ none →
      (runSync store docText input).written = none) ∧
    (runSync c5store (some c5text) ["a"]).err = some SyncError.inputClosed ∧
    (runSync c5store (some c5text) ["a"]).store.lookupSkill "a" = some "2" ∧
    (runSync c5store (some c5text) ["a"]).written = none := by
  refine ⟨?_, by decide, by decide, by decide⟩
  intro store docText input h
  cases docText with
  | none => exact absurd rfl h
  | some text =>
    cases hp : AgentsDoc.parse text with
    | error e =>
      simp only [runSync, hp]
    | ok doc =>
      cases hloop : syncLoop (sortedInsertAll doc.sectionNames [])
          ⟨store, doc, false, input⟩ with
      | mk stF e =>
        cases e with
        | some e => simp only [runSync, hp, hloop]
        | none =>
          simp only [runSync, hp, hloop] at h
          exact absurd rfl h

/-- C5 witness: the no-write-on-error part of the theorem at the concrete
abort scenario. -/
theorem c5_abort_no_doc_write_witness :
    (runSync c5store (some c5text) ["a"]).written = none :=
  c5_abort_no_doc_write.1 c5store (some c5text) ["a"] (by decide)

/-! ### Claim C6: name validation boundary -/

/-- C6: `validate_name` fails with the invalid-name error exactly when
the name is empty, contains a path separator, or contains `..`; a
document section with an invalid name makes `run_sync` fail; and any
name whose store entry `run_sync` creates or changes passed validation,
so no write can escape the skills root. -/
theorem c6_validate_name_boundary :
    (∀ n : String, validateName n = .error .invalidName ↔
      (n = "" ∨ '/' ∈ n.data ∨ '\\' ∈ n.data ∨ ['.', '.'] <:+: n.data)) ∧
    (∀ (store : SkillsStore) (text : String) (input : List String)
      (doc : AgentsDoc) (n : String),
      AgentsDoc.parse text = .ok doc → n ∈ doc.sectionNames →
      validNameB n = false →
      (runSync store (some text) input).err ≠ none) ∧
    (∀ (store : SkillsStore) (text : String) (input : List String) (n : String),
      (runSync store (some text) input).store.lookupSkill n ≠
        store.lookupSkill n →
      validNameB n = true) := by
  refine ⟨?_, ?_, ?_⟩
  · intro n
    have hE : n.data.isEmpty = true ↔ n = "" := by
      cases hd : n.data with
      | nil =>
        constructor
        · intro _; exact String.ext hd
        · intro _; rfl
      | cons c cs =>
        constructor
        · intro hh; exact absurd hh (by simp [List.isEmpty])
        · intro hh
          subst hh
          simp at hd
    have hS1 : n.data.contains '/' = true ↔ '/' ∈ n.data := List.elem_iff
    have hS2 : n.data.contains '\\' = true ↔ '\\' ∈ n.data := List.elem_iff
    have hCC := containsSeq_iff ['.', '.'] n.data
    have hiff : validNameB n = false ↔
        (n = "" ∨ '/' ∈ n.data ∨ '\\' ∈ n.data ∨ ['.', '.'] <:+: n.data) := by
      rw [validNameB]
      rw [Bool.and_eq_false_iff, Bool.and_eq_false_iff, Bool.and_eq_false_iff,
        Bool.not_eq_false', Bool.not_eq_false', Bool.not_eq_false',
        Bool.not_eq_false']
      rw [hE, hS1, hS2, hCC]
      tauto
    rw [validateName]
    by_cases hv : validNameB n = true
    · rw [if_pos hv]
      constructor
      · intro hcon; exact absurd hcon (by simp)
      · intro hdis
        have hcontra := hiff.mpr hdis
        rw [hv] at hcontra
        exact absurd hcontra (by simp)
    · rw [if_neg hv]
      have hfalse : validNameB n = false := by
        cases hb : validNameB n with
        | false => rfl
        | true => exact absurd hb hv
      constructor
      · intro _; exact hiff.mp hfalse
      · intro _; rfl
  · intro store text input doc n hp hn hbad
    intro hok
    cases hloop : syncLoop (sortedInsertAll doc.sectionNames [])
        ⟨store, doc, false, input⟩ with
    | mk stF e =>
      cases e with
      | some e =>
        simp only [runSync, hp, hloop] at hok
        exact absurd hok (by simp)
      | none =>
        have hv := syncLoop_all_valid (sortedInsertAll doc.sectionNames [])
          ⟨store, doc, false, input⟩ n
          ((mem_sortedInsertAll _ _ _).mpr (Or.inl hn)) (by rw [hloop])
        rw [hv] at hbad
        exact absurd hbad (by simp)
  · intro store text input n h
    cases hp : AgentsDoc.parse text with
    | error e =>
      have : (runSync store (some text) input).store = store := by
        simp only [runSync, hp]
      rw [this] at h
      exact absurd rfl h
    | ok doc =>
      cases hloop : syncLoop (sortedInsertAll doc.sectionNames [])
          ⟨store, doc, false, input⟩ with
      | mk stF e =>
        have hfst : (syncLoop (sortedInsertAll doc.sectionNames [])
            ⟨store, doc, false, input⟩).1 = stF := by
          rw [hloop]
        have hstore : (runSync store (some text) input).store = stF.store := by
          cases e with
          | some e => simp only [runSync, hp, hloop]
          | none => simp only [runSync, hp, hloop]
        rw [hstore] at h
        apply syncLoop_store_valid (sortedInsertAll doc.sectionNames [])
          ⟨store, doc, false, input⟩ n
        rw [hfst]
        exact h

/-- Document text whose single section carries a path-traversal name. -/
def c6text : String :=
  "<!-- prime-agent(Start ../evil) -->\n## ../evil\nZ\n<!-- prime-agent(End ../evil) -->\n"

/-- Parsed form of `c6text`. -/
def c6doc : AgentsDoc := (AgentsDoc.parse c6text).toOption.getD AgentsDoc.empty

/-- C6 witness: a malicious section name `../evil` makes the concrete run
fail rather than write outside the skills root. -/
theorem c6_validate_name_boundary_witness :
    (runSync ⟨[]⟩ (some c6text) []).err ≠ none :=
  c6_validate_name_boundary.2.1 ⟨[]⟩ c6text [] c6doc "../evil"
    (by decide) (by decide) (by decide)

/-! ### Claim C7: parse/render round trip -/

/-- C7: for every document text that parses successfully, rendering the
parsed document reproduces the input text byte for byte. -/
theorem c7_round_trip (text : String) (d : AgentsDoc)
    (h : AgentsDoc.parse text = .ok d) : d.render = text :=
  parse_render_roundtrip text d h

/-- Document text with free text, a marked section and a final line
without a trailing newline. -/
def c7text : String :=
  "Intro\n<!-- prime-agent(Start alpha) -->\n## alpha\nBody\n<!-- prime-agent(End alpha) -->\nOutro"

/-- Parsed form of `c7text`. -/
def c7doc : AgentsDoc := (AgentsDoc.parse c7text).toOption.getD AgentsDoc.empty

/-- C7 witness: the round trip at a concrete document text. -/
theorem c7_round_trip_witness :
    AgentsDoc.parse c7text = .ok c7doc ∧ c7doc.render = c7text := by
  have h : AgentsDoc.parse c7text = .ok c7doc := by decide
  exact ⟨h, c7_round_trip c7text c7doc h⟩

/-! ### Claim C8: missing document skips to the commit step -/

/-- C8: when the document file does not exist, `run_sync` performs no
parsing, no store write and no document write; it proceeds directly to
the (external) commit step and succeeds. -/
theorem c8_missing_document_skips (store : SkillsStore) (input : List String) :
    runSync store none input = ⟨store, none, none, none⟩ := rfl

/-! ### Claim C9: resolution order -/

/-- Store for the C9 ordering scenario. -/
def c9store : SkillsStore := ⟨[("a", "1\n"), ("b", "1\n")]⟩

/-- Document text whose sections appear in the order `b`, `a`, both in
conflict with the store. -/
def c9text : String :=
  "<!-- prime-agent(Start b) -->\n## b\n2\n<!-- prime-agent(End b) -->\n<!-- prime-agent(Start a) -->\n## a\n2\n<!-- prime-agent(End a) -->\n"

/-- Parsed form of `c9text`. -/
def c9doc : AgentsDoc := (AgentsDoc.parse c9text).toOption.getD AgentsDoc.empty

/-- C9 (counterexample): `section_names()` lists `b` before `a`, but
`run_sync` resolves `a` first - with input choices `skill` then
`agents`, the engine leaves `a` at its store content, while a loop in
`section_names()` order would set `a` to the document content. -/
theorem c9_order_counterexample :
    c9doc.sectionNames = ["b", "a"] ∧
    (runSync c9store (some c9text) ["s", "a"]).store.lookupSkill "a" = some "1\n" ∧
    (syncLoop c9doc.sectionNames
      ⟨c9store, c9doc, false, ["s", "a"]⟩).1.store.lookupSkill "a" = some "2" ∧
    (runSync c9store (some c9text) ["s", "a"]).store.lookupSkill "a" ≠
      (syncLoop c9doc.sectionNames
        ⟨c9store, c9doc, false, ["s", "a"]⟩).1.store.lookupSkill "a" := by
  refine ⟨by decide, by decide, by decide, by decide⟩

/-- C9 (amended): `run_sync` resolves names strictly one at a time, in
the lexicographically sorted order of the distinct document section
names (the `BTreeSet` iteration order), which is the `section_names()`
sequence deduplicated and sorted - not the document order itself. -/
theorem c9_sorted_order (store : SkillsStore) (text : String) (input : List String)
    (doc : AgentsDoc) (h : AgentsDoc.parse text = .ok doc) :
    StrSorted (sortedInsertAll doc.sectionNames []) ∧
    (∀ n, n ∈ sortedInsertAll doc.sectionNames [] ↔ n ∈ doc.sectionNames) ∧
    runSync store (some text) input =
      (match syncLoop (sortedInsertAll doc.sectionNames [])
          ⟨store, doc, false, input⟩ with
       | (st, some e) => ⟨st.store, none, some st.doc, some e⟩
       | (st, none) =>
         ⟨st.store,
           if st.updated = true ∨ st.doc.render ≠ text
             then some st.doc.render else none,
           some st.doc, none⟩) := by
  refine ⟨sorted_sortedInsertAll _ [] (by simp [StrSorted]), ?_, ?_⟩
  · intro n
    rw [mem_sortedInsertAll]
    simp
  · simp only [runSync, h]

/-- C9 witness: the sorted-order characterization at the concrete
ordering scenario. -/
theorem c9_sorted_order_witness :
    StrSorted (sortedInsertAll c9doc.sectionNames []) ∧
    ("a" ∈ sortedInsertAll c9doc.sectionNames [] ↔ "a" ∈ c9doc.sectionNames) :=
  ⟨(c9_sorted_order c9store c9text ["s", "a"] c9doc (by decide)).1,
    (c9_sorted_order c9store c9text ["s", "a"] c9doc (by decide)).2.1 "a"⟩

/-! ### Claim C10: the interactive prompt loop -/

/-- C10: the prompt fails only at end of input with the input-closed
error; a line that does not parse as a choice (`s`/`skill`/`a`/`agents`
case-insensitively after trimming) is skipped and the prompt repeated;
a valid line returns its choice with the rest of the input; every run of
the prompt either returns one of the two choices or fails with the
input-closed error. -/
theorem c10_prompt_choice_loop :
    promptChoice [] = .error .inputClosed ∧
    (∀ line rest, parseChoiceLine line = none →
      promptChoice (line :: rest) = promptChoice rest) ∧
    (∀ line rest c, parseChoiceLine line = some c →
      promptChoice (line :: rest) = .ok (c, rest)) ∧
    (∀ input : List String,
      (∃ rest, promptChoice input = .ok (Choice.skill, rest) ∨
        promptChoice input = .ok (Choice.agents, rest)) ∨
      promptChoice input = .error .inputClosed) := by
  refine ⟨rfl, ?_, ?_, ?_⟩
  · intro line rest h
    rw [promptChoice, h]
  · intro line rest c h
    rw [promptChoice, h]
  · intro input
    induction input with
    | nil => exact Or.inr rfl
    | cons line rest ih =>
      cases h : parseChoiceLine line with
      | none =>
        rw [promptChoice, h]
        exact ih
      | some c =>
        rw [promptChoice, h]
        cases c with
        | skill => exact Or.inl ⟨rest, Or.inl rfl⟩
        | agents => exact Or.inl ⟨rest, Or.inr rfl⟩

/-- C10 witness: an invalid line is skipped, then a whitespace-padded
upper-case `SKILL` is accepted as the skill choice. -/
theorem c10_prompt_choice_loop_witness :
    promptChoice ["quit", " SKILL "] = .ok (Choice.skill, []) := by
  have h1 := c10_prompt_choice_loop.2.1 "quit" [" SKILL "] (by decide)
  have h2 := c10_prompt_choice_loop.2.2.1 " SKILL " [] Choice.skill (by decide)
  rw [h1, h2]

end PrimeAgent
